import Mathlib

/-!
# Verification of the maze-game core (`src/game.js`)

A shallow embedding of the maze generator, the BFS reachability oracle, the
key-cell placement planner and the movement/progress state machine of the
game, together with proofs of the specified properties.

Conventions of the embedding:

* The grid is `List (List ℕ)` exactly as in the source (`grid[y][x]`,
  `1` = wall, `0` = passage).  Reads return `Option ℕ`, with `none` playing
  the role of JavaScript `undefined` for an out-of-range access.
* Cell coordinates are integers, since the source freely forms `x - 1` at
  `x = 0` and relies on such coordinates failing the bounds checks.
* `Math.random()` consumption is modelled by explicit streams: the carve
  loop receives the shuffled direction list of every iteration, and the soft
  re-walling loop the three draws of every iteration.  All theorems about
  the generator quantify over all such streams.
* Loops of the source are modelled with an explicit fuel that is provably
  sufficient (the same bound the termination arguments use), so that every
  definition is executable.
-/

namespace MazeGame

/-- A cell position, mirroring the `{x, y}` objects of `game.js`. -/
structure Pt where
  x : ℤ
  y : ℤ
deriving DecidableEq, Repr

/-- The maze grid, as in the source: a list of rows, each row a list of
cells; `1` = wall, `0` = passage, indexed `grid[y][x]`. -/
abbrev Grid := List (List ℕ)

/-- Read `grid[y][x]`; `none` corresponds to JavaScript `undefined`. -/
def gridGet (g : Grid) (x y : ℤ) : Option ℕ :=
  if 0 ≤ x ∧ 0 ≤ y then (g.get? y.toNat).bind (fun row => row.get? x.toNat) else none

/-- Write `grid[y][x] = v`.  Every write the source performs is inside the
allocated rectangle, where this agrees with the JavaScript assignment. -/
def gridSet (g : Grid) (x y : ℤ) (v : ℕ) : Grid :=
  if 0 ≤ x ∧ 0 ≤ y then g.set y.toNat (((g.get? y.toNat).getD []).set x.toNat v) else g

/-- The grid is a `h`-row by `w`-column rectangle. -/
def Shaped (w h : ℕ) (g : Grid) : Prop :=
  g.length = h ∧ ∀ r ∈ g, r.length = w

/-- `rows` as computed by `initGame`: `maze.length`. -/
def rowsOf (m : Grid) : ℕ := m.length

/-- `cols` as computed by `initGame`: `maze[0].length`. -/
def colsOf (m : Grid) : ℕ := (m.headD []).length

/-- `isWalkable(x, y)` from the source. -/
def isWalkable (m : Grid) (x y : ℤ) : Bool :=
  if x < 0 ∨ x ≥ (colsOf m : ℤ) ∨ y < 0 ∨ y ≥ (rowsOf m : ℤ) then false
  else decide (gridGet m x y = some 0)

/-! ## Maze generation (`generatePerfectMaze`) -/

/-- `carve(x, y)`: set the cell to PASSAGE. -/
def carve (g : Grid) (x y : ℤ) : Grid := gridSet g x y 0

/-- The four two-step carve directions (`dirs` in the generator). -/
def carveDirs : List (ℤ × ℤ) := [(2, 0), (-2, 0), (0, 2), (0, -2)]

/-- The inner `for (const d of shuffled)` loop: return the first direction
whose two-step target is strictly inside the border and still uncarved
(the loop `break`s at the first success). -/
def findCarve (g : Grid) (w h : ℕ) (cur : Pt) : List (ℤ × ℤ) → Option (ℤ × ℤ)
  | [] => none
  | d :: ds =>
    let nx := cur.x + d.1
    let ny := cur.y + d.2
    if nx ≤ 0 ∨ ny ≤ 0 ∨ nx ≥ (w : ℤ) - 1 ∨ ny ≥ (h : ℤ) - 1 then findCarve g w h cur ds
    else if gridGet g nx ny = some 0 then findCarve g w h cur ds
    else some d

/-- State of the stack-driven carve loop. -/
structure CarveSt where
  g : Grid
  stack : List Pt

/-- One iteration of the `while (stack.length)` loop, given this iteration's
shuffled direction order: carve the wall between and the target and push it,
or pop when no direction qualifies. -/
def carveStep (w h : ℕ) (shuffled : List (ℤ × ℤ)) (s : CarveSt) : CarveSt :=
  match s.stack with
  | [] => s
  | cur :: rest =>
    match findCarve s.g w h cur shuffled with
    | some d =>
      let nx := cur.x + d.1
      let ny := cur.y + d.2
      let wx := cur.x + d.1 / 2
      let wy := cur.y + d.2 / 2
      { g := carve (carve s.g wx wy) nx ny, stack := ⟨nx, ny⟩ :: s.stack }
    | none => { g := s.g, stack := rest }

/-- The carve loop with explicit fuel; `shuf i` is the shuffled direction
order produced by the `Math.random()`-keyed sort in iteration `i`. -/
def carveLoop (w h : ℕ) (shuf : ℕ → List (ℤ × ℤ)) : ℕ → ℕ → CarveSt → CarveSt
  | 0, _, s => s
  | fuel + 1, i, s =>
    if s.stack = [] then s else carveLoop w h shuf fuel (i + 1) (carveStep w h (shuf i) s)

/-- Fuel provably sufficient for the carve loop to drain its stack. -/
def carveFuel (w h : ℕ) : ℕ := 2 * w * h + 2

/-- The carving phase of `generatePerfectMaze`: all-wall grid, `carve(1,1)`,
then the stack-driven loop until the stack empties. -/
def carvePhase (w h : ℕ) (shuf : ℕ → List (ℤ × ℤ)) : CarveSt :=
  let g0 : Grid := List.replicate h (List.replicate w 1)
  carveLoop w h shuf (carveFuel w h) 0 { g := carve g0 1 1, stack := [⟨1, 1⟩] }

/-- `openN`: the number of open orthogonal neighbours of `(x, y)`
(each summand is the source's `grid[·][·] === 0` test). -/
def openN (g : Grid) (x y : ℤ) : ℕ :=
  (if gridGet g x (y - 1) = some 0 then 1 else 0) +
  (if gridGet g x (y + 1) = some 0 then 1 else 0) +
  (if gridGet g (x - 1) y = some 0 then 1 else 0) +
  (if gridGet g (x + 1) y = some 0 then 1 else 0)

/-- One iteration of the soft re-walling loop.  `r = (rx, ry, accept)` models
the iteration's three `Math.random()` draws: the sampled cell is
`x = 1 + ⌊rand·(w-2)⌋`, `y = 1 + ⌊rand·(h-2)⌋` (`rx % (w-2)` ranges over the
same values `0 … w-3`), and `accept` is the outcome of the comparison
`Math.random() < 0.25`. -/
def rewallStep (w h : ℕ) (g : Grid) (r : ℕ × ℕ × Bool) : Grid :=
  let x : ℤ := 1 + ((r.1 % (w - 2) : ℕ) : ℤ)
  let y : ℤ := 1 + ((r.2.1 % (h - 2) : ℕ) : ℤ)
  if gridGet g x y ≠ some 0 then g
  else if 3 ≤ openN g x y ∧ r.2.2 = true then gridSet g x y 1 else g

/-- The 140-iteration soft re-walling loop. -/
def rewallPhase (w h : ℕ) (rw : ℕ → ℕ × ℕ × Bool) (g : Grid) : Grid :=
  (List.range 140).foldl (fun g i => rewallStep w h g (rw i)) g

/-- The final border-forcing pass (`// ensure borders walls`). -/
def borderPhase (w h : ℕ) (g : Grid) : Grid :=
  let g1 := (List.range w).foldl
    (fun (g : Grid) (x : ℕ) => gridSet (gridSet g (x : ℤ) 0 1) (x : ℤ) ((h : ℤ) - 1) 1) g
  (List.range h).foldl
    (fun (g : Grid) (y : ℕ) => gridSet (gridSet g 0 (y : ℤ) 1) ((w : ℤ) - 1) (y : ℤ) 1) g1

/-- The odd-dimension coercion at the top of `generatePerfectMaze`. -/
def oddify (n : ℕ) : ℕ := if n % 2 = 0 then n + 1 else n

/-- `generatePerfectMaze(w, h)`.  The streams `shuf` and `rw` model the
program's `Math.random()` draws (see `carveLoop` and `rewallStep`). -/
def generatePerfectMaze (w h : ℕ) (shuf : ℕ → List (ℤ × ℤ))
    (rw : ℕ → ℕ × ℕ × Bool) : Grid :=
  let w' := oddify w
  let h' := oddify h
  borderPhase w' h' (rewallPhase w' h' rw (carvePhase w' h' shuf).g)

/-! ## Reachability oracle (`bfsDistances`, `nearestPassage`) -/

/-- The four one-step directions used by BFS, movement and the ring search. -/
def bfsDirs : List (ℤ × ℤ) := [(1, 0), (-1, 0), (0, 1), (0, -1)]

/-- State of the `bfsDistances` loop: the distance map (a `-1`-initialised
grid in the source) and the FIFO queue. -/
structure BfsSt where
  dist : Pt → ℤ
  q : List Pt

/-- The body of the `for (const d of dirs)` loop of `bfsDistances`. -/
def bfsVisit (m : Grid) (c : Pt) (s : BfsSt) (d : ℤ × ℤ) : BfsSt :=
  let nx := c.x + d.1
  let ny := c.y + d.2
  if ¬ isWalkable m nx ny then s
  else if s.dist ⟨nx, ny⟩ ≠ -1 then s
  else { dist := fun p => if p = ⟨nx, ny⟩ then s.dist c + 1 else s.dist p,
         q := s.q ++ [⟨nx, ny⟩] }

/-- One iteration of the `while (q.length)` loop of `bfsDistances`:
`shift()` the head and visit its four neighbours. -/
def bfsStep (m : Grid) (s : BfsSt) : BfsSt :=
  match s.q with
  | [] => s
  | c :: rest => bfsDirs.foldl (bfsVisit m c) { dist := s.dist, q := rest }

/-- The BFS loop with explicit fuel. -/
def bfsLoop (m : Grid) : ℕ → BfsSt → BfsSt
  | 0, s => s
  | fuel + 1, s => if s.q = [] then s else bfsLoop m fuel (bfsStep m s)

/-- Fuel provably sufficient for the BFS queue to drain. -/
def bfsFuel (m : Grid) : ℕ := rowsOf m * colsOf m + 2

/-- `bfsDistances(from)`: the distance map from a source cell
(`-1` = UNREACHABLE). -/
def bfsDistances (m : Grid) (src : Pt) : Pt → ℤ :=
  (bfsLoop m (bfsFuel m)
    { dist := fun p => if p = src then 0 else -1, q := [src] }).dist

/-- State of the `nearestPassage` ring search: FIFO queue and `seen` set. -/
structure RingSt where
  q : List Pt
  seen : Pt → Bool

/-- The neighbour-enqueue step of `nearestPassage`. -/
def ringVisit (m : Grid) (c : Pt) (s : RingSt) (d : ℤ × ℤ) : RingSt :=
  let nx := c.x + d.1
  let ny := c.y + d.2
  if nx < 0 ∨ ny < 0 ∨ nx ≥ (colsOf m : ℤ) ∨ ny ≥ (rowsOf m : ℤ) then s
  else if s.seen ⟨nx, ny⟩ = true then s
  else { q := s.q ++ [⟨nx, ny⟩],
         seen := fun p => if p = ⟨nx, ny⟩ then true else s.seen p }

/-- The `while (q.length)` loop of `nearestPassage`: return the first
walkable cell dequeued, else exhaust the queue. -/
def ringLoop (m : Grid) : ℕ → RingSt → Option Pt
  | 0, _ => none
  | fuel + 1, s =>
    match s.q with
    | [] => none
    | c :: rest =>
      if isWalkable m c.x c.y then some c
      else ringLoop m fuel (bfsDirs.foldl (ringVisit m c) { q := rest, seen := s.seen })

/-- `nearestPassage(targetX, targetY)`: BFS ring search for the nearest
walkable cell, falling back to `(1, 1)`. -/
def nearestPassage (m : Grid) (tx ty : ℤ) : Pt :=
  (ringLoop m (rowsOf m * colsOf m + 2)
    { q := [⟨tx, ty⟩], seen := fun p => decide (p = (⟨tx, ty⟩ : Pt)) }).getD ⟨1, 1⟩

/-- `getAllPassages()`: all passage cells in row-major order. -/
def getAllPassages (m : Grid) : List Pt :=
  ((List.range (rowsOf m)).map (fun (y : ℕ) =>
    (((List.range (colsOf m)).filter (fun (x : ℕ) =>
        decide (gridGet m (x : ℤ) (y : ℤ) = some 0))).map
      (fun (x : ℕ) => (⟨(x : ℤ), (y : ℤ)⟩ : Pt))))).flatten

/-! ## Key-cell placement (`placeKeyCells`) -/

/-- The candy objective `min(a, b) * 10 + (a + b)`. -/
def candyScore (dS dE : Pt → ℤ) (c : Pt) : ℤ :=
  min (dS c) (dE c) * 10 + (dS c + dE c)

/-- The body of the candy-selection `for (const c of passages)` loop;
the accumulator is `(best, bestScore)`. -/
def candyFold (dS dE : Pt → ℤ) (acc : Pt × ℤ) (c : Pt) : Pt × ℤ :=
  let a := dS c
  let b := dE c
  if a < 0 ∨ b < 0 then acc
  else if a < 40 then acc
  else if b < 40 then acc
  else if acc.2 < candyScore dS dE c then (c, candyScore dS dE c) else acc

/-- The bottom-right bias of the exit-relocation scan, `(x / cols) + (y / rows)`
(exact rational arithmetic in place of the source's binary floating point;
the comparisons proved about it are far from the rounding error). -/
def biasQ (m : Grid) (c : Pt) : ℚ :=
  (c.x : ℚ) / (colsOf m : ℚ) + (c.y : ℚ) / (rowsOf m : ℚ)

/-- The combined exit-relocation objective `dc + bias * 15`. -/
def combinedQ (m : Grid) (dC : Pt → ℤ) (c : Pt) : ℚ :=
  (dC c : ℚ) + biasQ m c * 15

/-- The combined objective carried with the fixed common denominator
`cols * rows`: this is `(dc + bias*15) * (cols*rows)` written out.  The scan
compares scores (and the raw distance) with exact `<`; all scores share this
positive denominator, so the comparisons are comparisons of numerators. -/
def exitScoreNum (m : Grid) (dC : Pt → ℤ) (c : Pt) : ℤ :=
  dC c * ((colsOf m * rowsOf m : ℕ) : ℤ) +
    15 * (c.x * (rowsOf m : ℤ) + c.y * (colsOf m : ℤ))

/-- The body of the exit-relocation scan, over numerators; the accumulator
is `(bestExit, bestED * (cols*rows))`.  Note the outer guard compares the
raw distance `dc` against the running best of the *combined* score, exactly
as the source. -/
def exitFold (m : Grid) (dC : Pt → ℤ) (acc : Pt × ℤ) (c : Pt) : Pt × ℤ :=
  if acc.2 < dC c * ((colsOf m * rowsOf m : ℕ) : ℤ) then
    if acc.2 < exitScoreNum m dC c then (c, exitScoreNum m dC c) else acc
  else acc

/-- The three key cells chosen by `placeKeyCells` (start, exit, candy). -/
structure KeyCells where
  startCell : Pt
  exitCell : Pt
  candyCell : Pt
deriving DecidableEq, Repr

/-- The anchor `Math.floor(n * 0.3)`; exact for every grid dimension the
program uses (the double rounding of `n * 0.3` never crosses an integer). -/
def anchor3 (n : ℕ) : ℤ := ((n * 3 / 10 : ℕ) : ℤ)

/-- `placeKeyCells`, step 1: `startCell = nearestPassage(1, rows - 2)`. -/
def startCellOf (m : Grid) : Pt := nearestPassage m 1 ((rowsOf m : ℤ) - 2)

/-- `placeKeyCells`, step 1: the initial
`exitCell = nearestPassage(cols - 2, rows - 2)` (before any relocation). -/
def exitCell0 (m : Grid) : Pt :=
  nearestPassage m ((colsOf m : ℤ) - 2) ((rowsOf m : ℤ) - 2)

/-- `placeKeyCells`, step 2: `dStart = bfsDistances(startCell)`. -/
def dStartOf (m : Grid) : Pt → ℤ := bfsDistances m (startCellOf m)

/-- `placeKeyCells`, step 2: `dExit = bfsDistances(exitCell)`. -/
def dExitOf (m : Grid) : Pt → ℤ := bfsDistances m (exitCell0 m)

/-- `placeKeyCells`, step 3: the candy scan over all passages
(`best`/`bestScore`, initialised to `passages[0]` and `-1`). -/
def candyBest (m : Grid) : Pt × ℤ :=
  (getAllPassages m).foldl (candyFold (dStartOf m) (dExitOf m))
    ((getAllPassages m).headD ⟨1, 1⟩, -1)

/-- `placeKeyCells`, step 3: `candyCell = bestScore >= 0 ? best :
nearestPassage(floor(cols*0.3), floor(rows*0.3))`. -/
def candyCellOf (m : Grid) : Pt :=
  if 0 ≤ (candyBest m).2 then (candyBest m).1
  else nearestPassage m (anchor3 (colsOf m)) (anchor3 (rowsOf m))

/-- `placeKeyCells`, step 4: `dCandy = bfsDistances(candyCell)`. -/
def dCandyOf (m : Grid) : Pt → ℤ := bfsDistances m (candyCellOf m)

/-- `placeKeyCells`, step 4: relocate the exit when
`dCandy[exitCell] < 60`, by the `exitFold` scan over all passages. -/
def exitCellOf (m : Grid) : Pt :=
  if dCandyOf m (exitCell0 m) < 60 then
    ((getAllPassages m).foldl (exitFold m (dCandyOf m))
      (exitCell0 m, -((colsOf m * rowsOf m : ℕ) : ℤ))).1
  else exitCell0 m

/-- `placeKeyCells()`: start and exit snapped to the bottom corners, candy
far from both (with fallback), and the exit relocated when it ends up too
close to the candy. -/
def placeKeyCells (m : Grid) : KeyCells :=
  ⟨startCellOf m, exitCellOf m, candyCellOf m⟩

/-! ## Movement and progress (`tryMove`, the animation-complete branch,
`finishMaze`) -/

/-- A movement direction. -/
inductive Dir where
  | up
  | down
  | left
  | right
deriving DecidableEq, Repr

/-- `dirToDelta(dir)`. -/
def dirToDelta : Dir → ℤ × ℤ
  | .up => (0, -1)
  | .down => (0, 1)
  | .left => (-1, 0)
  | .right => (1, 0)

/-- The fixed game context of a session: the maze and the key cells. -/
structure GameEnv where
  maze : Grid
  candyCell : Pt
  exitCell : Pt

/-- The mutable session state: player logical cell, in-flight flag, candy
and finish flags, and the single-slot pending-move queue (`queuedDir`).
The fractional interpolation position `px/py` is presentation-only (it never
feeds back into the game logic) and is not modelled. -/
structure Session where
  cellX : ℤ
  cellY : ℤ
  moving : Bool
  hasCandy : Bool
  gameFinished : Bool
  queuedDir : Option Dir
deriving DecidableEq, Repr

/-- The discrete events the core emits to its collaborators: the candy
pickup celebration, the locked-exit rejection toast, and the invocation of
`finishMaze`. -/
inductive Ev where
  | candyCollected
  | rejectedExitLocked
  | finished
deriving DecidableEq, Repr

/-- `finishMaze()` (its state effect: latch the finished flag). -/
def finishMaze (s : Session) : Session :=
  if s.gameFinished = true then s else { s with gameFinished := true }

/-- `tryMove(dir)` up to the start of the animation: finished sessions
ignore input, in-flight sessions overwrite the pending slot, otherwise a
walkable target commits the logical position immediately. -/
def tryMove (env : GameEnv) (s : Session) (dir : Dir) : Session :=
  if s.gameFinished = true then s
  else if s.moving = true then { s with queuedDir := some dir }
  else
    let d := dirToDelta dir
    let nx := s.cellX + d.1
    let ny := s.cellY + d.2
    if ¬ isWalkable env.maze nx ny then s
    else { s with moving := true, queuedDir := none, cellX := nx, cellY := ny }

/-- The `p = 1` (animation-complete) branch of the `animate` callback:
clear the in-flight flag, perform the candy pickup, gate the exit on the
candy flag (`finishMaze` with an early return, or a rejection toast), then
drain the single pending queued direction. -/
def completeMove (env : GameEnv) (s : Session) : Session × List Ev :=
  let s1 : Session := { s with moving := false }
  let pickup : Session × List Ev :=
    if s1.hasCandy = false ∧ s1.cellX = env.candyCell.x ∧ s1.cellY = env.candyCell.y then
      ({ s1 with hasCandy := true }, [Ev.candyCollected])
    else (s1, [])
  let s2 := pickup.1
  if s2.cellX = env.exitCell.x ∧ s2.cellY = env.exitCell.y then
    if s2.hasCandy = false then
      match s2.queuedDir with
      | some nd => (tryMove env { s2 with queuedDir := none } nd,
                    pickup.2 ++ [Ev.rejectedExitLocked])
      | none => (s2, pickup.2 ++ [Ev.rejectedExitLocked])
    else (finishMaze s2, pickup.2 ++ [Ev.finished])
  else
    match s2.queuedDir with
    | some nd => (tryMove env { s2 with queuedDir := none } nd, pickup.2)
    | none => (s2, pickup.2)

/-- An externally observable step of the session: a move request from the
input collaborator, or the completion of the in-flight animation (which
only exists while a move is in flight). -/
inductive GEvent where
  | req (d : Dir)
  | finishAnim

/-- One step of the session under an external event. -/
def gstep (env : GameEnv) (s : Session) : GEvent → Session × List Ev
  | .req d => (tryMove env s d, [])
  | .finishAnim => if s.moving = true then completeMove env s else (s, [])

/-- Run a session through a sequence of external events. -/
def runSession (env : GameEnv) : Session → List GEvent → Session
  | s, [] => s
  | s, e :: es => runSession env (gstep env s e).1 es

/-- The fresh session state produced by `initGame`/`resetGame`: player at
the start cell, nothing in flight, no candy, not finished. -/
def initialSession (start : Pt) : Session :=
  ⟨start.x, start.y, false, false, false, none⟩

/-! ## Specification-level notions

Graph-theoretic notions the claims quantify over: 4-adjacency of passage
cells, reachability, path length, and the odd-coordinate interior lattice
spanned by the carve step. -/

/-- Two cells are adjacent passages: both PASSAGE and at Manhattan
distance 1. -/
def PassAdj (m : Grid) (p q : Pt) : Prop :=
  gridGet m p.x p.y = some 0 ∧ gridGet m q.x q.y = some 0 ∧
    (q.x - p.x).natAbs + (q.y - p.y).natAbs = 1

/-- Reachability via 4-connected PASSAGE steps. -/
def ReachP (m : Grid) : Pt → Pt → Prop := Relation.ReflTransGen (PassAdj m)

/-- One step as taken by `bfsDistances` and `tryMove`: to a 4-adjacent cell
that is walkable (the walkability test applies to the target only). -/
def AdjStep (m : Grid) (p q : Pt) : Prop :=
  (∃ d ∈ bfsDirs, q = ⟨p.x + d.1, p.y + d.2⟩) ∧ isWalkable m q.x q.y = true

/-- `ReachN m src n c`: there is a walk of exactly `n` `AdjStep`s from
`src` to `c`. -/
inductive ReachN (m : Grid) (src : Pt) : ℕ → Pt → Prop where
  | zero : ReachN m src 0 src
  | succ {n p q} : ReachN m src n p → AdjStep m p q → ReachN m src (n + 1) q

/-- A cell of the odd-coordinate interior lattice visited by the carve. -/
def OddInterior (w h : ℕ) (p : Pt) : Prop :=
  p.x % 2 = 1 ∧ p.y % 2 = 1 ∧ 0 < p.x ∧ p.x < (w : ℤ) - 1 ∧ 0 < p.y ∧ p.y < (h : ℤ) - 1

/-- The odd interior coordinates below `n`: `1, 3, …` strictly between the
borders `0` and `n - 1`. -/
def oddBelow (n : ℕ) : List ℕ := (List.range n).filter (fun k => k % 2 = 1 ∧ k + 1 < n)

/-- The odd-coordinate interior lattice as a list (row-major). -/
def oddLattice (w h : ℕ) : List Pt :=
  ((oddBelow h).map (fun (y : ℕ) => (oddBelow w).map
    (fun (x : ℕ) => (⟨(x : ℤ), (y : ℤ)⟩ : Pt)))).flatten

/-- The number of PASSAGE cells of a grid. -/
def passCount (g : Grid) : ℕ := (g.map (fun row => row.count 0)).sum

/-- The number of PASSAGE cells on the odd interior lattice. -/
def oddPassCount (w h : ℕ) (g : Grid) : ℕ :=
  ((oddLattice w h).filter (fun p => decide (gridGet g p.x p.y = some 0))).length

/-- The number of WALL cells on the odd interior lattice (the carve loop's
termination measure decreases with it). -/
def oddWallCount (w h : ℕ) (g : Grid) : ℕ :=
  ((oddLattice w h).filter (fun p => decide (gridGet g p.x p.y ≠ some 0))).length

/-- Termination measure of the carve loop. -/
def carveMeasure (w h : ℕ) (s : CarveSt) : ℕ :=
  2 * oddWallCount w h s.g + s.stack.length

/-- The in-bounds cells of the grid as a list. -/
def latticePts (m : Grid) : List Pt :=
  ((List.range (rowsOf m)).map (fun (y : ℕ) => (List.range (colsOf m)).map
    (fun (x : ℕ) => (⟨(x : ℤ), (y : ℤ)⟩ : Pt)))).flatten

/-- The number of in-bounds cells not yet assigned by a BFS distance map
(part of the BFS termination measure). -/
def unassignedCount (m : Grid) (dist : Pt → ℤ) : ℕ :=
  (latticePts m).countP (fun p => decide (dist p = -1))

/-- Termination measure of the BFS loop. -/
def bfsMeasure (m : Grid) (s : BfsSt) : ℕ := unassignedCount m s.dist + s.q.length

/-- The candy-candidate constraint of the scan: BFS distance at least 40
from both the start map and the exit map (this subsumes reachability). -/
def CandyCand (dS dE : Pt → ℤ) (c : Pt) : Prop := 40 ≤ dS c ∧ 40 ≤ dE c

instance (dS dE : Pt → ℤ) (c : Pt) : Decidable (CandyCand dS dE c) :=
  decidable_of_iff (40 ≤ dS c ∧ 40 ≤ dE c) Iff.rfl

/-- The candy-scan accumulator holds a cell satisfying `Q` that is a
candidate, together with its exact score. -/
def CandyGood (dS dE : Pt → ℤ) (Q : Pt → Prop) (a : Pt × ℤ) : Prop :=
  Q a.1 ∧ CandyCand dS dE a.1 ∧ a.2 = candyScore dS dE a.1

/-- A concrete 9×7 grid (an actual possible output of the generator) on
which the exit-relocation scan does not pick a maximizer of the combined
score. -/
def mazeC3 : Grid :=
  [[1, 1, 1, 1, 1, 1, 1, 1, 1],
   [1, 0, 1, 0, 0, 0, 0, 0, 1],
   [1, 0, 1, 1, 1, 1, 1, 0, 1],
   [1, 0, 1, 0, 0, 0, 1, 0, 1],
   [1, 0, 1, 0, 1, 0, 1, 0, 1],
   [1, 0, 0, 0, 1, 0, 0, 0, 1],
   [1, 1, 1, 1, 1, 1, 1, 1, 1]]

/-- The invariant of the `bfsDistances` loop, between iterations: the source
is assigned; every assigned cell holds the exact (least) walk length from
the source; queued cells are assigned, in nondecreasing distance order and
within a band of width one; and every dequeued (assigned, no longer queued)
cell has all its step-successors assigned. -/
structure BfsInv (m : Grid) (src : Pt) (s : BfsSt) : Prop where
  srcA : s.dist src ≠ -1
  exact : ∀ c : Pt, s.dist c ≠ -1 →
    ∃ n : ℕ, ReachN m src n c ∧ s.dist c = (n : ℤ) ∧ ∀ k : ℕ, ReachN m src k c → n ≤ k
  qA : ∀ c ∈ s.q, s.dist c ≠ -1
  qSorted : s.q.Pairwise (fun a b => s.dist a ≤ s.dist b)
  qBound : ∀ a ∈ s.q, ∀ b ∈ s.q, s.dist b ≤ s.dist a + 1
  processed : ∀ p : Pt, s.dist p ≠ -1 → p ∉ s.q →
    ∀ e : Pt, AdjStep m p e → s.dist e ≠ -1

/-- The mid-iteration state of the `bfsDistances` loop, while the dequeued
head `c` of `s₀` is visiting its neighbours. -/
structure BfsMid (m : Grid) (src : Pt) (s₀ : BfsSt) (c : Pt) (rest : List Pt)
    (s : BfsSt) : Prop where
  distRel : ∀ p : Pt, s.dist p = s₀.dist p ∨
    (s₀.dist p = -1 ∧ AdjStep m c p ∧ s.dist p = s₀.dist c + 1)
  qStruct : ∃ new : List Pt, s.q = rest ++ new ∧
    (∀ x ∈ new, s.dist x = s₀.dist c + 1) ∧
    (∀ p : Pt, s₀.dist p = -1 → s.dist p ≠ -1 → p ∈ new)
  exact : ∀ p : Pt, s.dist p ≠ -1 →
    ∃ n : ℕ, ReachN m src n p ∧ s.dist p = (n : ℤ) ∧ ∀ k : ℕ, ReachN m src k p → n ≤ k

/-- A concrete grid whose centre is a WALL, used as the BFS source in the
claim-C4 counterexample. -/
def mazeC4 : Grid := [[1, 1, 1], [1, 1, 0], [1, 1, 1]]

/-- The three cell facts around the origin cell (1,1) that the generator
maintains: (1,1) is PASSAGE, its border neighbours (0,1) and (1,0) are WALL. -/
def Keep11 (g : Grid) : Prop :=
  gridGet g 1 1 = some 0 ∧ gridGet g 0 1 = some 1 ∧ gridGet g 1 0 = some 1

/-- A carved bridge cell: exactly one coordinate is even, and the two
odd-lattice neighbours along the even axis are both PASSAGE. -/
def BridgeAt (g : Grid) (p : Pt) : Prop :=
  (p.x % 2 = 0 ∧ p.y % 2 = 1 ∧
      gridGet g (p.x - 1) p.y = some 0 ∧ gridGet g (p.x + 1) p.y = some 0) ∨
  (p.x % 2 = 1 ∧ p.y % 2 = 0 ∧
      gridGet g p.x (p.y - 1) = some 0 ∧ gridGet g p.x (p.y + 1) = some 0)

/-- Invariant of the stack-driven carve loop. -/
structure CInv (w h : ℕ) (s : CarveSt) : Prop where
  shaped : Shaped w h s.g
  origin : gridGet s.g 1 1 = some 0
  stackOdd : ∀ p ∈ s.stack, OddInterior w h p
  stackPass : ∀ p ∈ s.stack, gridGet s.g p.x p.y = some 0
  kind : ∀ p : Pt, gridGet s.g p.x p.y = some 0 → OddInterior w h p ∨ BridgeAt s.g p
  conn : ∀ p : Pt, gridGet s.g p.x p.y = some 0 → ReachP s.g ⟨1, 1⟩ p
  closed : ∀ p : Pt, OddInterior w h p → gridGet s.g p.x p.y = some 0 →
    p ∉ s.stack → ∀ d ∈ carveDirs,
      0 < p.x + d.1 → p.x + d.1 < (w : ℤ) - 1 →
      0 < p.y + d.2 → p.y + d.2 < (h : ℤ) - 1 →
      gridGet s.g (p.x + d.1) (p.y + d.2) = some 0
  count : passCount s.g + 1 = 2 * oddPassCount w h s.g

/-! ## Basic grid lemmas -/

theorem gridGet_gridSet_ne {g : Grid} {x y x' y' : ℤ} {v : ℕ} (hne : x ≠ x' ∨ y ≠ y') :
    gridGet (gridSet g x' y' v) x y = gridGet g x y := by
  unfold gridGet gridSet
  by_cases hxy : 0 ≤ x ∧ 0 ≤ y
  · by_cases hxy' : 0 ≤ x' ∧ 0 ≤ y'
    · simp only [hxy, hxy', and_self, if_true]
      by_cases hy : y'.toNat = y.toNat
      · have hyy : y = y' := by omega
        have hx : x ≠ x' := by tauto
        rw [hy, List.get?_set_eq]
        cases hg : g.get? y.toNat with
        | none => simp
        | some row =>
          have hrow : g.get? y'.toNat = some row := by rw [hy]; exact hg
          simp only [Option.map_eq_map, Option.map_some', Option.bind_some, hrow,
            Option.getD_some]
          exact List.get?_set_ne v row (by omega)
      · rw [List.get?_set_ne _ _ hy]
    · simp [hxy', hxy]
  · simp [hxy]

theorem gridGet_gridSet_self {g : Grid} {x y : ℤ} {u : ℕ} (v : ℕ)
    (h : gridGet g x y = some u) : gridGet (gridSet g x y v) x y = some v := by
  unfold gridGet gridSet
  unfold gridGet at h
  by_cases hxy : 0 ≤ x ∧ 0 ≤ y
  · simp only [hxy, and_self, if_true] at h ⊢
    rw [Option.bind_eq_some] at h
    obtain ⟨row, hg, hrow⟩ := h
    obtain ⟨hlt, -⟩ := List.get?_eq_some.mp hrow
    rw [List.get?_set_eq]
    simp only [hg, Option.getD_some, Option.map_eq_map, Option.map_some', Option.bind_some]
    exact List.get?_set_eq_of_lt v hlt
  · rw [if_neg hxy] at h; exact absurd h (by simp)

theorem gridGet_gridSet_cases (g : Grid) (x y x' y' : ℤ) (v : ℕ) :
    gridGet (gridSet g x' y' v) x y = gridGet g x y ∨
      (x = x' ∧ y = y' ∧ gridGet (gridSet g x' y' v) x y = some v) := by
  by_cases hne : x ≠ x' ∨ y ≠ y'
  · exact Or.inl (gridGet_gridSet_ne hne)
  · push_neg at hne
    obtain ⟨hx, hy⟩ := hne
    subst hx; subst hy
    cases h : gridGet g x y with
    | some u => exact Or.inr ⟨rfl, rfl, gridGet_gridSet_self v h⟩
    | none =>
      left
      unfold gridGet gridSet
      unfold gridGet at h
      by_cases hxy : 0 ≤ x ∧ 0 ≤ y
      · simp only [hxy, and_self, if_true] at h ⊢
        cases hg : g.get? y.toNat with
        | none =>
          have hlen : g.length ≤ y.toNat := List.get?_eq_none.mp hg
          rw [List.set_eq_of_length_le hlen, hg]
          rfl
        | some row =>
          rw [hg] at h
          simp only [Option.bind_some, Option.some_bind] at h
          have hlen : row.length ≤ x.toNat := List.get?_eq_none.mp h
          rw [List.get?_set_eq]
          simp only [hg, Option.getD_some, List.set_eq_of_length_le hlen,
            Option.map_eq_map, Option.map_some', Option.bind_some, Option.some_bind]
          exact h
      · simp [hxy]

theorem Shaped.set {w h : ℕ} {g : Grid} (hs : Shaped w h g) (x y : ℤ) (v : ℕ) :
    Shaped w h (gridSet g x y v) := by
  obtain ⟨hlen, hrow⟩ := hs
  unfold gridSet
  by_cases hxy : 0 ≤ x ∧ 0 ≤ y
  · rw [if_pos hxy]
    by_cases hy : y.toNat < g.length
    · refine ⟨by simpa using hlen, ?_⟩
      intro r hr
      rcases List.mem_or_eq_of_mem_set hr with hr' | hr'
      · exact hrow r hr'
      · subst hr'
        rw [List.get?_eq_get hy]
        simp only [Option.getD_some, List.length_set]
        exact hrow _ (List.get_mem g y.toNat hy)
    · rw [List.set_eq_of_length_le (by omega)]
      exact ⟨hlen, hrow⟩
  · rw [if_neg hxy]
    exact ⟨hlen, hrow⟩

theorem Shaped.gridGet_some {w h : ℕ} {g : Grid} (hs : Shaped w h g)
    {x y : ℤ} (hx0 : 0 ≤ x) (hxw : x < (w : ℤ)) (hy0 : 0 ≤ y) (hyh : y < (h : ℤ)) :
    ∃ v, gridGet g x y = some v := by
  obtain ⟨hlen, hrow⟩ := hs
  unfold gridGet
  rw [if_pos ⟨hx0, hy0⟩]
  have hy : y.toNat < g.length := by omega
  rw [List.get?_eq_get hy]
  have hx : x.toNat < (g.get ⟨y.toNat, hy⟩).length := by
    rw [hrow _ (List.get_mem g y.toNat hy)]; omega
  simp only [Option.some_bind]
  exact ⟨_, List.get?_eq_get hx⟩

theorem Shaped.gridGet_bounds {w h : ℕ} {g : Grid} (hs : Shaped w h g)
    {x y : ℤ} {v : ℕ} (hv : gridGet g x y = some v) :
    0 ≤ x ∧ x < (w : ℤ) ∧ 0 ≤ y ∧ y < (h : ℤ) := by
  obtain ⟨hlen, hrow⟩ := hs
  unfold gridGet at hv
  by_cases hxy : 0 ≤ x ∧ 0 ≤ y
  · rw [if_pos hxy] at hv
    rw [Option.bind_eq_some] at hv
    obtain ⟨row, hg, hrow'⟩ := hv
    have h1 : y.toNat < g.length := (List.get?_eq_some.mp hg).1
    have h2 : x.toNat < row.length := (List.get?_eq_some.mp hrow').1
    have h3 : row ∈ g := List.get?_mem hg
    have h4 := hrow row h3
    omega
  · rw [if_neg hxy] at hv
    exact absurd hv (by simp)

theorem shaped_replicate (w h : ℕ) : Shaped w h (List.replicate h (List.replicate w 1)) :=
  ⟨List.length_replicate h _, fun r hr => by
    rw [List.eq_of_mem_replicate hr]; exact List.length_replicate w 1⟩

theorem gridGet_replicate {w h : ℕ} {x y : ℤ}
    (hx0 : 0 ≤ x) (hxw : x < (w : ℤ)) (hy0 : 0 ≤ y) (hyh : y < (h : ℤ)) :
    gridGet (List.replicate h (List.replicate w 1)) x y = some 1 := by
  unfold gridGet
  rw [if_pos ⟨hx0, hy0⟩]
  have hy : y.toNat < h := by omega
  have hx : x.toNat < w := by omega
  rw [List.get?_eq_getElem?, List.getElem?_replicate_of_lt hy]
  simp only [Option.some_bind]
  rw [List.get?_eq_getElem?, List.getElem?_replicate_of_lt hx]

theorem rowsOf_shaped {w h : ℕ} {g : Grid} (hs : Shaped w h g) : rowsOf g = h := hs.1

theorem colsOf_shaped {w h : ℕ} {g : Grid} (hs : Shaped w h g) (hh : 0 < h) :
    colsOf g = w := by
  obtain ⟨hlen, hrow⟩ := hs
  cases g with
  | nil => simp at hlen; omega
  | cons r t => exact hrow r (List.mem_cons_self r t)

/-- Folds whose step preserves a grid property preserve it. -/
theorem foldl_pres {α : Type} {P : Grid → Prop} {f : Grid → α → Grid}
    (hf : ∀ g a, P g → P (f g a)) :
    ∀ (l : List α) (g : Grid), P g → P (l.foldl f g)
  | [], _, hg => hg
  | a :: l, g, hg => foldl_pres hf l (f g a) (hf g a hg)

/-- Writing the value `1` preserves a cell already holding `1`. -/
theorem ones_pres {g : Grid} {x y x' y' : ℤ} (h : gridGet g x y = some 1) :
    gridGet (gridSet g x' y' 1) x y = some 1 := by
  rcases gridGet_gridSet_cases g x y x' y' 1 with hc | ⟨-, -, hc⟩
  · rw [hc]; exact h
  · rw [hc]

/-! ## Shape of generated grids -/

theorem shaped_carveStep {w h : ℕ} (sh : List (ℤ × ℤ)) (s : CarveSt)
    (hs : Shaped w h s.g) : Shaped w h (carveStep w h sh s).g := by
  obtain ⟨g, stack⟩ := s
  cases stack with
  | nil => exact hs
  | cons cur rest =>
    simp only [carveStep]
    cases findCarve g w h cur sh with
    | none => exact hs
    | some d => exact (hs.set _ _ 0).set _ _ 0

theorem shaped_carveLoop {w h : ℕ} (shuf : ℕ → List (ℤ × ℤ)) :
    ∀ (fuel i : ℕ) (s : CarveSt), Shaped w h s.g →
      Shaped w h (carveLoop w h shuf fuel i s).g := by
  intro fuel
  induction fuel with
  | zero => intro i s hs; exact hs
  | succ fuel ih =>
    intro i s hs
    unfold carveLoop
    by_cases hq : s.stack = []
    · rw [if_pos hq]; exact hs
    · rw [if_neg hq]
      exact ih (i + 1) _ (shaped_carveStep _ s hs)

theorem shaped_carvePhase (w h : ℕ) (shuf : ℕ → List (ℤ × ℤ)) :
    Shaped w h (carvePhase w h shuf).g :=
  shaped_carveLoop shuf _ _ _ ((shaped_replicate w h).set 1 1 0)

theorem shaped_rewallStep {w h : ℕ} {g : Grid} (hs : Shaped w h g)
    (r : ℕ × ℕ × Bool) : Shaped w h (rewallStep w h g r) := by
  unfold rewallStep
  dsimp only
  split_ifs with h1 h2
  · exact hs
  · exact hs.set _ _ 1
  · exact hs

theorem shaped_rewallPhase {w h : ℕ} (rw : ℕ → ℕ × ℕ × Bool) {g : Grid}
    (hs : Shaped w h g) : Shaped w h (rewallPhase w h rw g) := by
  unfold rewallPhase
  exact foldl_pres (P := Shaped w h) (f := fun g i => rewallStep w h g (rw i))
    (fun g i hg => shaped_rewallStep hg (rw i)) (List.range 140) g hs

theorem shaped_borderPhase {w h : ℕ} {g : Grid} (hs : Shaped w h g) :
    Shaped w h (borderPhase w h g) := by
  unfold borderPhase
  exact foldl_pres (fun g a hg => (hg.set _ _ 1).set _ _ 1) _ _
    (foldl_pres (fun g a hg => (hg.set _ _ 1).set _ _ 1) _ _ hs)

theorem shaped_generate (w h : ℕ) (shuf : ℕ → List (ℤ × ℤ))
    (rw : ℕ → ℕ × ℕ × Bool) :
    Shaped (oddify w) (oddify h) (generatePerfectMaze w h shuf rw) :=
  shaped_borderPhase (shaped_rewallPhase rw (shaped_carvePhase _ _ shuf))

theorem oddify_pos (n : ℕ) : 0 < oddify n := by
  unfold oddify; split <;> omega

theorem oddify_odd (n : ℕ) : oddify n % 2 = 1 := by
  unfold oddify; split <;> omega

theorem rowsOf_generate (w h : ℕ) (shuf : ℕ → List (ℤ × ℤ))
    (rw : ℕ → ℕ × ℕ × Bool) :
    rowsOf (generatePerfectMaze w h shuf rw) = oddify h :=
  rowsOf_shaped (shaped_generate w h shuf rw)

theorem colsOf_generate (w h : ℕ) (shuf : ℕ → List (ℤ × ℤ))
    (rw : ℕ → ℕ × ℕ × Bool) :
    colsOf (generatePerfectMaze w h shuf rw) = oddify w :=
  colsOf_shaped (shaped_generate w h shuf rw) (oddify_pos h)

/-! ## The border-forcing pass -/

theorem border_fold1 {w h : ℕ} (hh : 0 < h) :
    ∀ (l : List ℕ) (g : Grid), Shaped w h g → (∀ a ∈ l, a < w) →
      ∀ x ∈ l,
        gridGet (l.foldl
            (fun (g : Grid) (x : ℕ) =>
              gridSet (gridSet g (x : ℤ) 0 1) (x : ℤ) ((h : ℤ) - 1) 1) g)
          (x : ℤ) 0 = some 1 ∧
        gridGet (l.foldl
            (fun (g : Grid) (x : ℕ) =>
              gridSet (gridSet g (x : ℤ) 0 1) (x : ℤ) ((h : ℤ) - 1) 1) g)
          (x : ℤ) ((h : ℤ) - 1) = some 1 := by
  intro l
  induction l with
  | nil => intro g _ _ x hx; exact absurd hx (List.not_mem_nil x)
  | cons a l ih =>
    intro g hs hlt x hx
    simp only [List.foldl_cons]
    set g1 := gridSet (gridSet g (a : ℤ) 0 1) (a : ℤ) ((h : ℤ) - 1) 1 with hg1
    have hs1 : Shaped w h g1 := (hs.set _ _ 1).set _ _ 1
    rcases List.mem_cons.mp hx with hxa | hxl
    · subst hxa
      have haw : x < w := hlt x (List.mem_cons_self x l)
      have h1 : gridGet g1 (x : ℤ) 0 = some 1 := by
        obtain ⟨v, hv⟩ := hs.gridGet_some (x := (x : ℤ)) (y := 0) (by omega) (by omega)
          le_rfl (by omega)
        exact ones_pres (gridGet_gridSet_self 1 hv)
      have h2 : gridGet g1 (x : ℤ) ((h : ℤ) - 1) = some 1 := by
        obtain ⟨v, hv⟩ := (hs.set (x : ℤ) 0 1).gridGet_some (x := (x : ℤ))
          (y := (h : ℤ) - 1) (by omega) (by omega) (by omega) (by omega)
        exact gridGet_gridSet_self 1 hv
      constructor
      · exact foldl_pres (P := fun g => gridGet g (x : ℤ) 0 = some 1)
          (fun g a hg => ones_pres (ones_pres hg)) l g1 h1
      · exact foldl_pres (P := fun g => gridGet g (x : ℤ) ((h : ℤ) - 1) = some 1)
          (fun g a hg => ones_pres (ones_pres hg)) l g1 h2
    · exact ih g1 hs1 (fun b hb => hlt b (List.mem_cons_of_mem a hb)) x hxl

theorem border_fold2 {w h : ℕ} (hw : 0 < w) :
    ∀ (l : List ℕ) (g : Grid), Shaped w h g → (∀ a ∈ l, a < h) →
      ∀ y ∈ l,
        gridGet (l.foldl
            (fun (g : Grid) (y : ℕ) =>
              gridSet (gridSet g 0 (y : ℤ) 1) ((w : ℤ) - 1) (y : ℤ) 1) g)
          0 (y : ℤ) = some 1 ∧
        gridGet (l.foldl
            (fun (g : Grid) (y : ℕ) =>
              gridSet (gridSet g 0 (y : ℤ) 1) ((w : ℤ) - 1) (y : ℤ) 1) g)
          ((w : ℤ) - 1) (y : ℤ) = some 1 := by
  intro l
  induction l with
  | nil => intro g _ _ y hy; exact absurd hy (List.not_mem_nil y)
  | cons a l ih =>
    intro g hs hlt y hy
    simp only [List.foldl_cons]
    set g1 := gridSet (gridSet g 0 (a : ℤ) 1) ((w : ℤ) - 1) (a : ℤ) 1 with hg1
    have hs1 : Shaped w h g1 := (hs.set _ _ 1).set _ _ 1
    rcases List.mem_cons.mp hy with hya | hyl
    · subst hya
      have hah : y < h := hlt y (List.mem_cons_self y l)
      have h1 : gridGet g1 0 (y : ℤ) = some 1 := by
        obtain ⟨v, hv⟩ := hs.gridGet_some (x := 0) (y := (y : ℤ)) le_rfl
          (by omega) (by omega) (by omega)
        exact ones_pres (gridGet_gridSet_self 1 hv)
      have h2 : gridGet g1 ((w : ℤ) - 1) (y : ℤ) = some 1 := by
        obtain ⟨v, hv⟩ := (hs.set 0 (y : ℤ) 1).gridGet_some (x := (w : ℤ) - 1)
          (y := (y : ℤ)) (by omega) (by omega) (by omega) (by omega)
        exact gridGet_gridSet_self 1 hv
      constructor
      · exact foldl_pres (P := fun g => gridGet g 0 (y : ℤ) = some 1)
          (fun g a hg => ones_pres (ones_pres hg)) l g1 h1
      · exact foldl_pres (P := fun g => gridGet g ((w : ℤ) - 1) (y : ℤ) = some 1)
          (fun g a hg => ones_pres (ones_pres hg)) l g1 h2
    · exact ih g1 hs1 (fun b hb => hlt b (List.mem_cons_of_mem a hb)) y hyl

theorem borderPhase_border {w h : ℕ} {g : Grid} (hs : Shaped w h g)
    (hw : 0 < w) (hh : 0 < h) :
    (∀ x : ℤ, 0 ≤ x → x < (w : ℤ) →
      gridGet (borderPhase w h g) x 0 = some 1 ∧
      gridGet (borderPhase w h g) x ((h : ℤ) - 1) = some 1) ∧
    (∀ y : ℤ, 0 ≤ y → y < (h : ℤ) →
      gridGet (borderPhase w h g) 0 y = some 1 ∧
      gridGet (borderPhase w h g) ((w : ℤ) - 1) y = some 1) := by
  unfold borderPhase
  set g1 := (List.range w).foldl
    (fun (g : Grid) (x : ℕ) =>
      gridSet (gridSet g (x : ℤ) 0 1) (x : ℤ) ((h : ℤ) - 1) 1) g with hg1
  have hs1 : Shaped w h g1 :=
    foldl_pres (fun g a hg => (hg.set _ _ 1).set _ _ 1) _ _ hs
  constructor
  · intro x hx0 hxw
    have hx : x.toNat ∈ List.range w := List.mem_range.mpr (by omega)
    have hrow := border_fold1 (w := w) hh (List.range w) g hs
      (fun a ha => List.mem_range.mp ha) x.toNat hx
    rw [Int.toNat_of_nonneg hx0] at hrow
    constructor
    · exact foldl_pres (P := fun g => gridGet g x 0 = some 1)
        (fun g a hg => ones_pres (ones_pres hg)) _ _ hrow.1
    · exact foldl_pres (P := fun g => gridGet g x ((h : ℤ) - 1) = some 1)
        (fun g a hg => ones_pres (ones_pres hg)) _ _ hrow.2
  · intro y hy0 hyh
    have hy : y.toNat ∈ List.range h := List.mem_range.mpr (by omega)
    have hcol := border_fold2 (h := h) hw (List.range h) g1 hs1
      (fun a ha => List.mem_range.mp ha) y.toNat hy
    rw [Int.toNat_of_nonneg hy0] at hcol
    exact hcol

/-! ## Claims C7 and C8: borders and dimensions -/

/-- C7: for every grid returned by `generatePerfectMaze` — all requested
dimensions, all randomness — every cell on row 0, on row `rows - 1`, on
column 0 and on column `cols - 1` is WALL. -/
theorem C7_border_invariant (w h : ℕ) (shuf : ℕ → List (ℤ × ℤ))
    (rw : ℕ → ℕ × ℕ × Bool) :
    (∀ x : ℤ, 0 ≤ x → x < (colsOf (generatePerfectMaze w h shuf rw) : ℤ) →
      gridGet (generatePerfectMaze w h shuf rw) x 0 = some 1 ∧
      gridGet (generatePerfectMaze w h shuf rw) x
        ((rowsOf (generatePerfectMaze w h shuf rw) : ℤ) - 1) = some 1) ∧
    (∀ y : ℤ, 0 ≤ y → y < (rowsOf (generatePerfectMaze w h shuf rw) : ℤ) →
      gridGet (generatePerfectMaze w h shuf rw) 0 y = some 1 ∧
      gridGet (generatePerfectMaze w h shuf rw)
        ((colsOf (generatePerfectMaze w h shuf rw) : ℤ) - 1) y = some 1) := by
  have hb := borderPhase_border
    (shaped_rewallPhase rw (shaped_carvePhase (oddify w) (oddify h) shuf))
    (oddify_pos w) (oddify_pos h)
  rw [colsOf_generate, rowsOf_generate]
  exact hb

set_option maxRecDepth 40000 in
/-- Witness for C7 at the default-style request 2×2 (coerced to 3×3). -/
theorem C7_border_invariant_witness :
    gridGet (generatePerfectMaze 2 2 (fun _ => carveDirs) (fun _ => (0, 0, false))) 1 0
        = some 1 ∧
      gridGet (generatePerfectMaze 2 2 (fun _ => carveDirs) (fun _ => (0, 0, false))) 1
        ((rowsOf (generatePerfectMaze 2 2 (fun _ => carveDirs) (fun _ => (0, 0, false))) : ℤ)
          - 1) = some 1 :=
  (C7_border_invariant 2 2 (fun _ => carveDirs) (fun _ => (0, 0, false))).1 1
    (by decide) (by decide)

/-- C8 (amended): each requested dimension is coerced by the generator to
`n + 1` when even and kept when odd; this "next odd value" is `≥ 3` exactly
when the request is at least 2 (a requested even width of 0 yields width 1);
in particular `generatePerfectMaze(40, 28)` yields exactly 41×29. -/
theorem C8_dimension_normalization (w h : ℕ) (shuf : ℕ → List (ℤ × ℤ))
    (rw : ℕ → ℕ × ℕ × Bool) :
    colsOf (generatePerfectMaze w h shuf rw) = (if w % 2 = 0 then w + 1 else w) ∧
    rowsOf (generatePerfectMaze w h shuf rw) = (if h % 2 = 0 then h + 1 else h) ∧
    (2 ≤ w → 3 ≤ colsOf (generatePerfectMaze w h shuf rw)) ∧
    (2 ≤ h → 3 ≤ rowsOf (generatePerfectMaze w h shuf rw)) ∧
    colsOf (generatePerfectMaze 40 28 shuf rw) = 41 ∧
    rowsOf (generatePerfectMaze 40 28 shuf rw) = 29 := by
  refine ⟨colsOf_generate w h shuf rw, rowsOf_generate w h shuf rw, ?_, ?_, ?_, ?_⟩
  · intro hw; rw [colsOf_generate]; unfold oddify; split <;> omega
  · intro hh; rw [rowsOf_generate]; unfold oddify; split <;> omega
  · rw [colsOf_generate]; rfl
  · rw [rowsOf_generate]; rfl

/-- Witness for C8 at the request 40×28. -/
theorem C8_dimension_normalization_witness :
    colsOf (generatePerfectMaze 40 28 (fun _ => carveDirs) (fun _ => (0, 0, false))) = 41 ∧
    3 ≤ colsOf (generatePerfectMaze 40 28 (fun _ => carveDirs) (fun _ => (0, 0, false))) :=
  ⟨(C8_dimension_normalization 40 28 (fun _ => carveDirs) (fun _ => (0, 0, false))).2.2.2.2.1,
   (C8_dimension_normalization 40 28 (fun _ => carveDirs)
      (fun _ => (0, 0, false))).2.2.1 (by omega)⟩

/-- C8 counterexample: the even requested width 0 is coerced to width 1, not
to an odd value `≥ 3` — "coerced to the next odd value ≥ 3" fails at 0. -/
theorem C8_dimension_counterexample :
    colsOf (generatePerfectMaze 0 28 (fun _ => carveDirs) (fun _ => (0, 0, false))) = 1 ∧
    ¬ 3 ≤ colsOf (generatePerfectMaze 0 28 (fun _ => carveDirs) (fun _ => (0, 0, false))) := by
  rw [colsOf_generate]
  exact ⟨rfl, by decide⟩

/-! ## Movement controller and progress state machine -/

theorem tryMove_gameFinished (env : GameEnv) (s : Session) (d : Dir) :
    (tryMove env s d).gameFinished = s.gameFinished := by
  unfold tryMove; dsimp only; split_ifs <;> rfl

theorem tryMove_hasCandy (env : GameEnv) (s : Session) (d : Dir) :
    (tryMove env s d).hasCandy = s.hasCandy := by
  unfold tryMove; dsimp only; split_ifs <;> rfl

theorem completeMove_finish_cases (env : GameEnv) (s : Session) :
    (completeMove env s).1.gameFinished = s.gameFinished ∨
      ((completeMove env s).1.gameFinished = true ∧
        (completeMove env s).1.hasCandy = true) := by
  obtain ⟨cx, cy, mv, hc, gf, qd⟩ := s
  unfold completeMove finishMaze
  dsimp only
  split_ifs <;> cases qd <;>
    simp_all [tryMove_gameFinished, tryMove_hasCandy] <;> tauto

theorem completeMove_candy_mono (env : GameEnv) (s : Session)
    (h : s.hasCandy = true) : (completeMove env s).1.hasCandy = true := by
  obtain ⟨cx, cy, mv, hc, gf, qd⟩ := s
  unfold completeMove finishMaze
  dsimp only
  subst h
  split_ifs <;> cases qd <;> simp_all [tryMove_hasCandy]

theorem gstep_finished_inv (env : GameEnv) (s : Session) (e : GEvent)
    (h : s.gameFinished = true → s.hasCandy = true) :
    (gstep env s e).1.gameFinished = true → (gstep env s e).1.hasCandy = true := by
  cases e with
  | req d =>
    intro hf
    simp only [gstep] at hf ⊢
    rw [tryMove_hasCandy]
    rw [tryMove_gameFinished] at hf
    exact h hf
  | finishAnim =>
    simp only [gstep]
    by_cases hm : s.moving = true
    · rw [if_pos hm]
      intro hf
      rcases completeMove_finish_cases env s with hc | hc
      · rw [hc] at hf
        exact completeMove_candy_mono env s (h hf)
      · exact hc.2
    · rw [if_neg hm]
      exact h

theorem runSession_finished_inv (env : GameEnv) :
    ∀ (evs : List GEvent) (s : Session),
      (s.gameFinished = true → s.hasCandy = true) →
      ((runSession env s evs).gameFinished = true →
        (runSession env s evs).hasCandy = true)
  | [], _, h => h
  | e :: evs, s, h =>
    runSession_finished_inv env evs (gstep env s e).1 (gstep_finished_inv env s e h)

theorem completeMove_rejection (env : GameEnv) (s : Session)
    (hx : s.cellX = env.exitCell.x) (hy : s.cellY = env.exitCell.y)
    (hc : s.hasCandy = false)
    (hne : ¬ (s.cellX = env.candyCell.x ∧ s.cellY = env.candyCell.y))
    (hq : s.queuedDir = none) :
    completeMove env s = ({ s with moving := false }, [Ev.rejectedExitLocked]) := by
  obtain ⟨cx, cy, mv, hcdy, gf, qd⟩ := s
  dsimp only at hx hy hc hne hq ⊢
  subst hx hy hc hq
  unfold completeMove
  dsimp only
  split_ifs with h1 h2 h3 <;> dsimp only <;> first
    | rfl
    | (exfalso; tauto)

theorem completeMove_finishes_iff (env : GameEnv) (s : Session) :
    Ev.finished ∈ (completeMove env s).2 ↔
      (s.cellX = env.exitCell.x ∧ s.cellY = env.exitCell.y ∧
        (s.hasCandy = true ∨
          (s.cellX = env.candyCell.x ∧ s.cellY = env.candyCell.y))) := by
  obtain ⟨cx, cy, mv, hc, gf, qd⟩ := s
  unfold completeMove
  dsimp only
  split_ifs <;> cases qd <;> simp_all <;> tauto

/-- C5: the session reaches the finished state only after the candy flag is
set.  (i) Along every event sequence from a fresh session, `finished` implies
`hasCandy`.  (ii) Completing a move onto the locked exit (candy distinct from
exit, no queued move) leaves the state unchanged apart from clearing the
in-flight flag, and fires exactly the rejection notice.  (iii) `finishMaze`
is invoked exactly when the completed move has the player on the exit cell
with the candy flag true at the exit check (the pickup of the same completion
counts, matching the source order). -/
theorem C5_exit_gated_on_candy (env : GameEnv) (start : Pt) :
    (∀ evs : List GEvent,
      (runSession env (initialSession start) evs).gameFinished = true →
      (runSession env (initialSession start) evs).hasCandy = true) ∧
    (∀ s : Session, s.cellX = env.exitCell.x → s.cellY = env.exitCell.y →
      s.hasCandy = false → env.candyCell ≠ env.exitCell → s.queuedDir = none →
      completeMove env s = ({ s with moving := false }, [Ev.rejectedExitLocked])) ∧
    (∀ s : Session,
      Ev.finished ∈ (completeMove env s).2 ↔
        (s.cellX = env.exitCell.x ∧ s.cellY = env.exitCell.y ∧
          (s.hasCandy = true ∨
            (s.cellX = env.candyCell.x ∧ s.cellY = env.candyCell.y)))) := by
  refine ⟨fun evs => runSession_finished_inv env evs _ (fun hff => Bool.noConfusion hff),
    fun s hx hy hc hne hq => ?_, completeMove_finishes_iff env⟩
  refine completeMove_rejection env s hx hy hc ?_ hq
  rintro ⟨h1, h2⟩
  have e1 : env.candyCell.x = env.exitCell.x := h1.symm.trans hx
  have e2 : env.candyCell.y = env.exitCell.y := h2.symm.trans hy
  refine hne ?_
  calc env.candyCell = ⟨env.candyCell.x, env.candyCell.y⟩ := rfl
    _ = ⟨env.exitCell.x, env.exitCell.y⟩ := by rw [e1, e2]
    _ = env.exitCell := rfl

/-- Witness for C5: a two-cell maze where the candy must be picked up before
the exit finishes the session. -/
theorem C5_exit_gated_on_candy_witness :
    (runSession ⟨[[0, 0]], ⟨1, 0⟩, ⟨0, 0⟩⟩ (initialSession ⟨0, 0⟩)
        [GEvent.req Dir.right, GEvent.finishAnim, GEvent.req Dir.left,
          GEvent.finishAnim]).gameFinished = true →
      (runSession ⟨[[0, 0]], ⟨1, 0⟩, ⟨0, 0⟩⟩ (initialSession ⟨0, 0⟩)
        [GEvent.req Dir.right, GEvent.finishAnim, GEvent.req Dir.left,
          GEvent.finishAnim]).hasCandy = true :=
  (C5_exit_gated_on_candy ⟨[[0, 0]], ⟨1, 0⟩, ⟨0, 0⟩⟩ ⟨0, 0⟩).1
    [GEvent.req Dir.right, GEvent.finishAnim, GEvent.req Dir.left, GEvent.finishAnim]

/-- C6: while a move is in flight, requested directions go to a single-slot
queue where newer overwrites older ("up" then "left" keeps only "left"), and
on completion (away from the candy and exit cells) exactly the most recent
pending direction is applied, by one `tryMove`. -/
theorem C6_move_queue_overwrite (env : GameEnv) (s : Session)
    (hm : s.moving = true) (hf : s.gameFinished = false)
    (hc : ¬ (s.cellX = env.candyCell.x ∧ s.cellY = env.candyCell.y))
    (hx : ¬ (s.cellX = env.exitCell.x ∧ s.cellY = env.exitCell.y)) :
    tryMove env (tryMove env s Dir.up) Dir.left = { s with queuedDir := some Dir.left } ∧
    completeMove env { s with queuedDir := some Dir.left } =
      (tryMove env { s with moving := false, queuedDir := none } Dir.left, []) := by
  have h1 : tryMove env s Dir.up = { s with queuedDir := some Dir.up } := by
    unfold tryMove
    rw [if_neg (by simp [hf]), if_pos hm]
  have h2 : tryMove env { s with queuedDir := some Dir.up } Dir.left =
      { s with queuedDir := some Dir.left } := by
    unfold tryMove
    rw [if_neg (by simp [hf]), if_pos (by simpa using hm)]
  refine ⟨by rw [h1, h2], ?_⟩
  unfold completeMove
  dsimp only
  split_ifs with hp
  · exact absurd ⟨hp.2.1, hp.2.2⟩ hc
  · dsimp only

/-- Witness for C6: a concrete in-flight session on a 3-cell corridor. -/
theorem C6_move_queue_overwrite_witness :
    tryMove ⟨[[0, 0, 0]], ⟨9, 9⟩, ⟨8, 8⟩⟩ (tryMove ⟨[[0, 0, 0]], ⟨9, 9⟩, ⟨8, 8⟩⟩
        ⟨1, 0, true, false, false, none⟩ Dir.up) Dir.left =
      { cellX := 1, cellY := 0, moving := true, hasCandy := false,
        gameFinished := false, queuedDir := some Dir.left } ∧
    completeMove ⟨[[0, 0, 0]], ⟨9, 9⟩, ⟨8, 8⟩⟩
        { cellX := 1, cellY := 0, moving := true, hasCandy := false,
          gameFinished := false, queuedDir := some Dir.left } =
      (tryMove ⟨[[0, 0, 0]], ⟨9, 9⟩, ⟨8, 8⟩⟩
        { cellX := 1, cellY := 0, moving := false, hasCandy := false,
          gameFinished := false, queuedDir := none } Dir.left, []) :=
  C6_move_queue_overwrite ⟨[[0, 0, 0]], ⟨9, 9⟩, ⟨8, 8⟩⟩
    ⟨1, 0, true, false, false, none⟩ rfl rfl (by decide) (by decide)

/-! ## The candy scan (claim C2) -/

theorem getAllPassages_mem {m : Grid} {c : Pt} :
    c ∈ getAllPassages m ↔
      0 ≤ c.x ∧ c.x < (colsOf m : ℤ) ∧ 0 ≤ c.y ∧ c.y < (rowsOf m : ℤ) ∧
        gridGet m c.x c.y = some 0 := by
  unfold getAllPassages
  rw [List.mem_flatten]
  constructor
  · rintro ⟨l, hl, hcl⟩
    rw [List.mem_map] at hl
    obtain ⟨y, hy, rfl⟩ := hl
    rw [List.mem_range] at hy
    rw [List.mem_map] at hcl
    obtain ⟨x, hx, rfl⟩ := hcl
    rw [List.mem_filter, List.mem_range] at hx
    obtain ⟨hxr, hpass⟩ := hx
    dsimp only
    refine ⟨by omega, by omega, by omega, by omega, by simpa using hpass⟩
  · rintro ⟨hx0, hxc, hy0, hyr, hpass⟩
    refine ⟨_, List.mem_map.mpr ⟨c.y.toNat, List.mem_range.mpr (by omega), rfl⟩, ?_⟩
    rw [List.mem_map]
    refine ⟨c.x.toNat, ?_, by rw [Int.toNat_of_nonneg hx0, Int.toNat_of_nonneg hy0]⟩
    rw [List.mem_filter, List.mem_range]
    refine ⟨by omega, by simp only [Int.toNat_of_nonneg hx0, Int.toNat_of_nonneg hy0]; simpa⟩

theorem candyFold_skip {dS dE : Pt → ℤ} (acc : Pt × ℤ) (c : Pt)
    (hc : ¬ CandyCand dS dE c) : candyFold dS dE acc c = acc := by
  unfold CandyCand at hc
  unfold candyFold
  dsimp only
  split_ifs with h1 h2 h3 h4
  · rfl
  · rfl
  · rfl
  · exact absurd ⟨by omega, by omega⟩ hc
  · rfl

theorem candyFold_mono {dS dE : Pt → ℤ} (acc : Pt × ℤ) (c : Pt) :
    acc.2 ≤ (candyFold dS dE acc c).2 := by
  unfold candyFold
  dsimp only
  split_ifs with h1 h2 h3 h4
  · exact le_rfl
  · exact le_rfl
  · exact le_rfl
  · exact le_of_lt h4
  · exact le_rfl

theorem candyFold_update {dS dE : Pt → ℤ} (acc : Pt × ℤ) (c : Pt)
    (hc : CandyCand dS dE c) :
    candyScore dS dE c ≤ (candyFold dS dE acc c).2 ∧
      (candyFold dS dE acc c = acc ∨
        ((candyFold dS dE acc c).1 = c ∧
          (candyFold dS dE acc c).2 = candyScore dS dE c)) := by
  obtain ⟨ha, hb⟩ := hc
  unfold candyFold
  dsimp only
  split_ifs with h1 h2 h3 h4
  · exact False.elim (by omega)
  · exact False.elim (by omega)
  · exact False.elim (by omega)
  · exact ⟨le_rfl, Or.inr ⟨rfl, rfl⟩⟩
  · exact ⟨by omega, Or.inl rfl⟩

theorem candyScore_nonneg {dS dE : Pt → ℤ} {c : Pt} (hc : CandyCand dS dE c) :
    0 ≤ candyScore dS dE c := by
  obtain ⟨ha, hb⟩ := hc
  unfold candyScore
  have := min_le_left (dS c) (dE c)
  have := le_min ha hb
  nlinarith

theorem candyFold_all_skip {dS dE : Pt → ℤ} :
    ∀ (l : List Pt) (acc : Pt × ℤ),
      (∀ c ∈ l, ¬ CandyCand dS dE c) →
      l.foldl (candyFold dS dE) acc = acc
  | [], _, _ => rfl
  | c :: l, acc, hl => by
    rw [List.foldl_cons, candyFold_skip acc c (hl c (List.mem_cons_self c l))]
    exact candyFold_all_skip l acc (fun d hd => hl d (List.mem_cons_of_mem c hd))

theorem candyFold_fold_mono {dS dE : Pt → ℤ} :
    ∀ (l : List Pt) (acc : Pt × ℤ),
      acc.2 ≤ (l.foldl (candyFold dS dE) acc).2
  | [], _ => le_rfl
  | c :: l, acc => by
    rw [List.foldl_cons]
    exact le_trans (candyFold_mono acc c) (candyFold_fold_mono l _)

theorem candyFold_good {dS dE : Pt → ℤ} (Q : Pt → Prop) :
    ∀ (l : List Pt) (acc : Pt × ℤ),
      (∀ c ∈ l, Q c) →
      (acc.2 = -1 ∨ CandyGood dS dE Q acc) →
      ((∃ c ∈ l, CandyCand dS dE c) ∨ CandyGood dS dE Q acc) →
      CandyGood dS dE Q (l.foldl (candyFold dS dE) acc) ∧
        ∀ c ∈ l, CandyCand dS dE c →
          candyScore dS dE c ≤ (l.foldl (candyFold dS dE) acc).2 := by
  intro l
  induction l with
  | nil =>
    intro acc hQ hinv hex
    rcases hex with ⟨c, hc, -⟩ | hgood
    · exact absurd hc (List.not_mem_nil c)
    · exact ⟨hgood, fun c hc => absurd hc (List.not_mem_nil c)⟩
  | cons a l ih =>
    intro acc hQ hinv hex
    rw [List.foldl_cons]
    by_cases hca : CandyCand dS dE a
    · have hupd := candyFold_update acc a hca
      have hgood' : CandyGood dS dE Q (candyFold dS dE acc a) := by
        rcases hupd.2 with heq | ⟨h1, h2⟩
        · rw [heq]
          rcases hinv with hm1 | hgood
          · exfalso
            have := candyScore_nonneg hca
            have := hupd.1
            rw [heq] at this
            omega
          · exact hgood
        · refine ⟨?_, ?_, ?_⟩
          · rw [h1]; exact hQ a (List.mem_cons_self a l)
          · rw [h1]; exact hca
          · rw [h1, h2]
      have hrec := ih (candyFold dS dE acc a)
        (fun d hd => hQ d (List.mem_cons_of_mem a hd)) (Or.inr hgood')
        (Or.inr hgood')
      refine ⟨hrec.1, ?_⟩
      intro c hc hcc
      rcases List.mem_cons.mp hc with rfl | hcl
      · exact le_trans hupd.1 (candyFold_fold_mono l _)
      · exact hrec.2 c hcl hcc
    · rw [candyFold_skip acc a hca]
      have hex' : (∃ c ∈ l, CandyCand dS dE c) ∨ CandyGood dS dE Q acc := by
        rcases hex with ⟨c, hc, hcc⟩ | hgood
        · rcases List.mem_cons.mp hc with rfl | hcl
          · exact absurd hcc hca
          · exact Or.inl ⟨c, hcl, hcc⟩
        · exact Or.inr hgood
      have hrec := ih acc (fun d hd => hQ d (List.mem_cons_of_mem a hd)) hinv hex'
      refine ⟨hrec.1, ?_⟩
      intro c hc hcc
      rcases List.mem_cons.mp hc with rfl | hcl
      · exact absurd hcc hca
      · exact hrec.2 c hcl hcc

/-- C2: whenever some PASSAGE cell is at BFS distance ≥ 40 from both the
start and the (initial) exit, the chosen candy cell is such a cell and
maximizes `min(dStart, dExit) * 10 + (dStart + dExit)` over all such cells;
when no PASSAGE cell clears both thresholds, the candy cell is
`nearestPassage(floor(cols·0.3), floor(rows·0.3))`. -/
theorem C2_candy_placement (m : Grid) :
    ((∃ c ∈ getAllPassages m, CandyCand (dStartOf m) (dExitOf m) c) →
      (placeKeyCells m).candyCell ∈ getAllPassages m ∧
      CandyCand (dStartOf m) (dExitOf m) ((placeKeyCells m).candyCell) ∧
      ∀ c ∈ getAllPassages m, CandyCand (dStartOf m) (dExitOf m) c →
        candyScore (dStartOf m) (dExitOf m) c ≤
          candyScore (dStartOf m) (dExitOf m) ((placeKeyCells m).candyCell)) ∧
    ((∀ c ∈ getAllPassages m, ¬ CandyCand (dStartOf m) (dExitOf m) c) →
      (placeKeyCells m).candyCell =
        nearestPassage m (anchor3 (colsOf m)) (anchor3 (rowsOf m))) := by
  constructor
  · intro hex
    have hg := @candyFold_good (dStartOf m) (dExitOf m)
      (fun c => c ∈ getAllPassages m) (getAllPassages m)
      ((getAllPassages m).headD ⟨1, 1⟩, -1) (fun c hc => hc) (Or.inl rfl)
      (Or.inl hex)
    have hbest : CandyGood (dStartOf m) (dExitOf m)
        (fun c => c ∈ getAllPassages m) (candyBest m) := hg.1
    obtain ⟨hmem, hcand, hscore⟩ := hbest
    have hnn : 0 ≤ (candyBest m).2 := by
      rw [hscore]; exact candyScore_nonneg hcand
    have hcandy : (placeKeyCells m).candyCell = (candyBest m).1 := by
      show candyCellOf m = (candyBest m).1
      unfold candyCellOf
      rw [if_pos hnn]
    rw [hcandy]
    refine ⟨hmem, hcand, ?_⟩
    intro c hc hcc
    rw [← hscore]
    exact hg.2 c hc hcc
  · intro hnone
    show candyCellOf m = _
    unfold candyCellOf
    rw [show candyBest m = ((getAllPassages m).headD ⟨1, 1⟩, -1) from
      candyFold_all_skip (getAllPassages m) _ hnone]
    rfl

/-- Witness for C2 on the concrete 9×7 grid (too small for any cell to clear
the 40-step thresholds, so the anchor fallback is taken). -/
theorem C2_candy_placement_witness :
    (placeKeyCells mazeC3).candyCell =
      nearestPassage mazeC3 (anchor3 (colsOf mazeC3)) (anchor3 (rowsOf mazeC3)) :=
  (C2_candy_placement mazeC3).2 (by decide)


/-! ## The exit-relocation scan (claim C3) -/

theorem isWalkable_eq_true {m : Grid} {x y : ℤ} :
    isWalkable m x y = true ↔
      0 ≤ x ∧ x < (colsOf m : ℤ) ∧ 0 ≤ y ∧ y < (rowsOf m : ℤ) ∧
        gridGet m x y = some 0 := by
  unfold isWalkable
  split_ifs with h
  · constructor
    · intro hh; simp at hh
    · rintro ⟨h1, h2, h3, h4, h5⟩; omega
  · rw [decide_eq_true_eq]
    constructor
    · intro hg; push_neg at h; exact ⟨by omega, by omega, by omega, by omega, hg⟩
    · exact fun hh => hh.2.2.2.2

theorem ringLoop_walkable {m : Grid} :
    ∀ (fuel : ℕ) (s : RingSt) {c : Pt}, ringLoop m fuel s = some c →
      isWalkable m c.x c.y = true
  | 0, s, c, h => by exact absurd h (by simp [ringLoop])
  | fuel + 1, s, c, h => by
    unfold ringLoop at h
    cases hq : s.q with
    | nil => rw [hq] at h; exact absurd h (by simp)
    | cons a rest =>
      rw [hq] at h
      dsimp only at h
      by_cases hw : isWalkable m a.x a.y = true
      · rw [if_pos hw] at h
        cases h
        exact hw
      · rw [if_neg hw] at h
        exact ringLoop_walkable fuel _ h

theorem nearestPassage_nonneg (m : Grid) (tx ty : ℤ) :
    0 ≤ (nearestPassage m tx ty).x ∧ 0 ≤ (nearestPassage m tx ty).y := by
  unfold nearestPassage
  cases hr : ringLoop m (rowsOf m * colsOf m + 2)
      { q := [⟨tx, ty⟩], seen := fun p => decide (p = (⟨tx, ty⟩ : Pt)) } with
  | none => exact show (0 : ℤ) ≤ 1 ∧ (0 : ℤ) ≤ 1 from ⟨by omega, by omega⟩
  | some c =>
    have hw := (isWalkable_eq_true).mp (ringLoop_walkable _ _ hr)
    exact show 0 ≤ c.x ∧ 0 ≤ c.y from ⟨hw.1, hw.2.2.1⟩

theorem bfsVisit_ge {m : Grid} {c : Pt} {s : BfsSt}
    (hs : ∀ p, -1 ≤ s.dist p) (d : ℤ × ℤ) :
    ∀ p, -1 ≤ (bfsVisit m c s d).dist p := by
  intro p
  unfold bfsVisit
  dsimp only
  by_cases h1 : ¬ isWalkable m (c.x + d.1) (c.y + d.2) = true
  · rw [if_pos h1]; exact hs p
  · rw [if_neg h1]
    by_cases h2 : s.dist ⟨c.x + d.1, c.y + d.2⟩ ≠ -1
    · rw [if_pos h2]; exact hs p
    · rw [if_neg h2]
      dsimp only
      split_ifs with hp
      · have := hs c; omega
      · exact hs p

theorem bfsStep_ge {m : Grid} {s : BfsSt} (hs : ∀ p, -1 ≤ s.dist p) :
    ∀ p, -1 ≤ (bfsStep m s).dist p := by
  unfold bfsStep
  cases hq : s.q with
  | nil => exact hs
  | cons c rest =>
    have : ∀ (ds : List (ℤ × ℤ)) (t : BfsSt), (∀ p, -1 ≤ t.dist p) →
        ∀ p, -1 ≤ (ds.foldl (bfsVisit m c) t).dist p := by
      intro ds
      induction ds with
      | nil => exact fun t ht => ht
      | cons d ds ih => exact fun t ht => ih _ (bfsVisit_ge ht d)
    exact this bfsDirs _ hs

theorem bfsLoop_ge {m : Grid} :
    ∀ (fuel : ℕ) (s : BfsSt), (∀ p, -1 ≤ s.dist p) →
      ∀ p, -1 ≤ (bfsLoop m fuel s).dist p
  | 0, _, hs => hs
  | fuel + 1, s, hs => by
    unfold bfsLoop
    split_ifs with hq
    · exact hs
    · exact bfsLoop_ge fuel _ (bfsStep_ge hs)

theorem bfsDistances_ge (m : Grid) (src : Pt) :
    ∀ p, -1 ≤ bfsDistances m src p := by
  unfold bfsDistances
  refine bfsLoop_ge _ _ ?_
  intro p
  dsimp only
  split_ifs <;> omega

theorem exitScoreNum_ge {m : Grid} {dC : Pt → ℤ} {c : Pt}
    (hx : 0 ≤ c.x) (hy : 0 ≤ c.y) :
    dC c * ((colsOf m * rowsOf m : ℕ) : ℤ) ≤ exitScoreNum m dC c := by
  unfold exitScoreNum
  have h1 : (0 : ℤ) ≤ c.x * (rowsOf m : ℤ) := by positivity
  have h2 : (0 : ℤ) ≤ c.y * (colsOf m : ℤ) := by positivity
  omega

theorem exitFold_step (m : Grid) (dC : Pt → ℤ) (acc : Pt × ℤ) (c : Pt)
    (hx : 0 ≤ c.x) (hy : 0 ≤ c.y) :
    acc.2 ≤ (exitFold m dC acc c).2 ∧
      dC c * ((colsOf m * rowsOf m : ℕ) : ℤ) ≤ (exitFold m dC acc c).2 ∧
      (exitFold m dC acc c = acc ∨
        ((exitFold m dC acc c).1 = c ∧
          (exitFold m dC acc c).2 = exitScoreNum m dC c)) := by
  have hge := @exitScoreNum_ge m dC c hx hy
  unfold exitFold
  split_ifs with h1 h2
  · exact ⟨le_of_lt h2, by omega, Or.inr ⟨rfl, rfl⟩⟩
  · exact ⟨le_rfl, by omega, Or.inl rfl⟩
  · exact ⟨le_rfl, by omega, Or.inl rfl⟩

theorem exitFold_fold (m : Grid) (dC : Pt → ℤ) :
    ∀ (l : List Pt) (acc : Pt × ℤ),
      (∀ c ∈ l, 0 ≤ c.x ∧ 0 ≤ c.y) →
      acc.2 ≤ exitScoreNum m dC acc.1 →
      (∀ c ∈ l,
        dC c * ((colsOf m * rowsOf m : ℕ) : ℤ) ≤ (l.foldl (exitFold m dC) acc).2) ∧
      (l.foldl (exitFold m dC) acc).2 ≤
        exitScoreNum m dC (l.foldl (exitFold m dC) acc).1 ∧
      ((l.foldl (exitFold m dC) acc).1 = acc.1 ∨
        (l.foldl (exitFold m dC) acc).1 ∈ l) := by
  intro l
  induction l with
  | nil =>
    intro acc hco hI2
    exact ⟨fun c hc => absurd hc (List.not_mem_nil c), hI2, Or.inl rfl⟩
  | cons a l ih =>
    intro acc hco hI2
    rw [List.foldl_cons]
    have hstep := exitFold_step m dC acc a
      (hco a (List.mem_cons_self a l)).1 (hco a (List.mem_cons_self a l)).2
    have hI2n : (exitFold m dC acc a).2 ≤ exitScoreNum m dC (exitFold m dC acc a).1 := by
      rcases hstep.2.2 with heq | ⟨h1, h2⟩
      · rw [heq]; exact hI2
      · rw [h1, h2]
    have hmono : ∀ (t : List Pt) (b : Pt × ℤ), b.2 ≤ (t.foldl (exitFold m dC) b).2 := by
      intro t
      induction t with
      | nil => exact fun b => le_rfl
      | cons u t iht =>
        intro b
        rw [List.foldl_cons]
        by_cases hu : 0 ≤ u.x ∧ 0 ≤ u.y
        · exact le_trans (exitFold_step m dC b u hu.1 hu.2).1 (iht _)
        · refine le_trans ?_ (iht (exitFold m dC b u))
          unfold exitFold
          split_ifs with h1 h2
          · exact le_of_lt h2
          · exact le_rfl
          · exact le_rfl
    have hrec := ih (exitFold m dC acc a)
      (fun d hd => hco d (List.mem_cons_of_mem a hd)) hI2n
    refine ⟨?_, hrec.2.1, ?_⟩
    · intro c hc
      rcases List.mem_cons.mp hc with rfl | hcl
      · exact le_trans hstep.2.1 (hmono l _)
      · exact hrec.1 c hcl
    · rcases hrec.2.2 with heq | hmem
      · rcases hstep.2.2 with heq2 | ⟨h1, -⟩
        · rw [heq, heq2]; exact Or.inl rfl
        · rw [heq, h1]; exact Or.inr (List.mem_cons_self a l)
      · exact Or.inr (List.mem_cons_of_mem a hmem)

theorem combinedQ_eq (m : Grid) (dC : Pt → ℤ) (c : Pt)
    (hw : 0 < colsOf m) (hh : 0 < rowsOf m) :
    combinedQ m dC c =
      (exitScoreNum m dC c : ℚ) / ((colsOf m * rowsOf m : ℕ) : ℚ) := by
  unfold combinedQ biasQ exitScoreNum
  have hw' : ((colsOf m : ℕ) : ℚ) ≠ 0 := by positivity
  have hh' : ((rowsOf m : ℕ) : ℚ) ≠ 0 := by positivity
  push_cast
  field_simp
  ring

/-- C3 (amended): whenever the relocation fires (candy-to-exit distance
below 60), the exit chosen by the scan is the initial exit or a PASSAGE
cell, and its combined score `dc + bias*15` is at least the raw
candy-distance of *every* PASSAGE cell; but because the scan's outer guard
compares the raw distance `dc` against the running best of the *combined*
score, the chosen exit need not maximize the combined score over all
PASSAGE cells (see the counterexample). -/
theorem C3_exit_relocation (m : Grid)
    (hreloc : dCandyOf m (exitCell0 m) < 60) :
    ((placeKeyCells m).exitCell = exitCell0 m ∨
      (placeKeyCells m).exitCell ∈ getAllPassages m) ∧
    ∀ c ∈ getAllPassages m,
      (dCandyOf m c : ℚ) ≤ combinedQ m (dCandyOf m) ((placeKeyCells m).exitCell) := by
  have hexit : (placeKeyCells m).exitCell =
      ((getAllPassages m).foldl (exitFold m (dCandyOf m))
        (exitCell0 m, -((colsOf m * rowsOf m : ℕ) : ℤ))).1 := by
    show exitCellOf m = _
    unfold exitCellOf
    rw [if_pos hreloc]
  have hco : ∀ c ∈ getAllPassages m, 0 ≤ c.x ∧ 0 ≤ c.y := by
    intro c hc
    have := getAllPassages_mem.mp hc
    exact ⟨this.1, this.2.2.1⟩
  have hI2 : (-((colsOf m * rowsOf m : ℕ) : ℤ)) ≤
      exitScoreNum m (dCandyOf m) (exitCell0 m) := by
    have h1 := (nearestPassage_nonneg m ((colsOf m : ℤ) - 2) ((rowsOf m : ℤ) - 2)).1
    have h2 := (nearestPassage_nonneg m ((colsOf m : ℤ) - 2) ((rowsOf m : ℤ) - 2)).2
    have h3 := @exitScoreNum_ge m (dCandyOf m) _ h1 h2
    have h4 : -1 ≤ dCandyOf m (exitCell0 m) :=
      bfsDistances_ge m (candyCellOf m) (exitCell0 m)
    have h5 : (0 : ℤ) ≤ ((colsOf m * rowsOf m : ℕ) : ℤ) := by positivity
    have h6 : -((colsOf m * rowsOf m : ℕ) : ℤ) ≤
        dCandyOf m (exitCell0 m) * ((colsOf m * rowsOf m : ℕ) : ℤ) := by
      have := mul_le_mul_of_nonneg_right h4 h5
      linarith
    calc -((colsOf m * rowsOf m : ℕ) : ℤ)
        ≤ dCandyOf m (exitCell0 m) * ((colsOf m * rowsOf m : ℕ) : ℤ) := h6
      _ ≤ exitScoreNum m (dCandyOf m) (exitCell0 m) := h3
  have hfold := exitFold_fold m (dCandyOf m) (getAllPassages m)
    (exitCell0 m, -((colsOf m * rowsOf m : ℕ) : ℤ)) hco hI2
  constructor
  · rw [hexit]
    exact hfold.2.2
  · intro c hc
    have hmem := getAllPassages_mem.mp hc
    have hwpos : 0 < colsOf m := by omega
    have hhpos : 0 < rowsOf m := by omega
    have hDpos : (0 : ℚ) < ((colsOf m * rowsOf m : ℕ) : ℚ) := by
      exact_mod_cast Nat.mul_pos hwpos hhpos
    rw [hexit, combinedQ_eq m (dCandyOf m) _ hwpos hhpos]
    rw [le_div_iff₀ hDpos]
    have h1 := hfold.1 c hc
    have h2 := hfold.2.1
    have : dCandyOf m c * ((colsOf m * rowsOf m : ℕ) : ℤ) ≤
        exitScoreNum m (dCandyOf m)
          (((getAllPassages m).foldl (exitFold m (dCandyOf m))
            (exitCell0 m, -((colsOf m * rowsOf m : ℕ) : ℤ))).1) := le_trans h1 h2
    exact_mod_cast this

set_option maxRecDepth 400000 in
/-- Witness for C3 (amended) on the concrete 9×7 grid. -/
theorem C3_exit_relocation_witness :
    (dCandyOf mazeC3 (⟨7, 5⟩ : Pt) : ℚ) ≤
      combinedQ mazeC3 (dCandyOf mazeC3) ((placeKeyCells mazeC3).exitCell) :=
  (C3_exit_relocation mazeC3 (by decide)).2 ⟨7, 5⟩ (by decide)

set_option maxRecDepth 400000 in
/-- C3 counterexample: on this grid the relocation fires, yet the PASSAGE
cell (7,5) has a strictly larger combined score than the exit the scan
chose — the chosen exit is not a maximizer of `dc + bias*15`. -/
theorem C3_exit_relocation_counterexample :
    dCandyOf mazeC3 (exitCell0 mazeC3) < 60 ∧
    (⟨7, 5⟩ : Pt) ∈ getAllPassages mazeC3 ∧
    combinedQ mazeC3 (dCandyOf mazeC3) ((placeKeyCells mazeC3).exitCell) <
      combinedQ mazeC3 (dCandyOf mazeC3) ⟨7, 5⟩ := by
  refine ⟨by decide, by decide, ?_⟩
  rw [combinedQ_eq mazeC3 (dCandyOf mazeC3) _ (by decide) (by decide),
    combinedQ_eq mazeC3 (dCandyOf mazeC3) _ (by decide) (by decide)]
  have hD : (0 : ℚ) < ((colsOf mazeC3 * rowsOf mazeC3 : ℕ) : ℚ) := by
    exact_mod_cast (by decide : 0 < colsOf mazeC3 * rowsOf mazeC3)
  rw [div_lt_div_iff_of_pos_right hD]
  have hlt : exitScoreNum mazeC3 (dCandyOf mazeC3) ((placeKeyCells mazeC3).exitCell) <
      exitScoreNum mazeC3 (dCandyOf mazeC3) ⟨7, 5⟩ := by decide
  exact_mod_cast hlt


/-! ## BFS correctness: walks and the termination measure -/

theorem AdjStep_symm {m : Grid} {p q : Pt}
    (hp : isWalkable m p.x p.y = true) (h : AdjStep m p q) : AdjStep m q p := by
  obtain ⟨⟨d, hd, rfl⟩, hw⟩ := h
  refine ⟨⟨(-d.1, -d.2), ?_, ?_⟩, hp⟩
  · fin_cases hd <;> decide
  · dsimp only
    have hx : p.x + d.1 + -d.1 = p.x := by ring
    have hy : p.y + d.2 + -d.2 = p.y := by ring
    rw [hx, hy]

theorem ReachN_trans {m : Grid} {x y z : Pt} {i j : ℕ}
    (h1 : ReachN m x i y) (h2 : ReachN m y j z) : ReachN m x (i + j) z := by
  induction h2 with
  | zero => exact h1
  | succ h hstep ih => exact ReachN.succ ih hstep

theorem ReachN_walkable {m : Grid} {src c : Pt} {n : ℕ}
    (hsrc : isWalkable m src.x src.y = true) (h : ReachN m src n c) :
    isWalkable m c.x c.y = true := by
  cases h with
  | zero => exact hsrc
  | succ h hstep => exact hstep.2

theorem ReachN_reverse {m : Grid} {a b : Pt} {n : ℕ}
    (ha : isWalkable m a.x a.y = true) (h : ReachN m a n b) : ReachN m b n a := by
  induction h with
  | zero => exact ReachN.zero
  | succ h hstep ih =>
    have hp := ReachN_walkable ha h
    have h1 : ReachN m _ 1 _ := ReachN.succ ReachN.zero (AdjStep_symm hp hstep)
    have h2 := ReachN_trans h1 ih
    rwa [Nat.add_comm] at h2

theorem ReachN_first_step {m : Grid} {src c : Pt} {n : ℕ} (h : ReachN m src n c) :
    c = src ∨ ∃ e : Pt, AdjStep m src e := by
  induction h with
  | zero => exact Or.inl rfl
  | succ h hstep ih =>
    rcases ih with rfl | he
    · exact Or.inr ⟨_, hstep⟩
    · exact Or.inr he

theorem latticePts_mem {m : Grid} {p : Pt} :
    p ∈ latticePts m ↔
      0 ≤ p.x ∧ p.x < (colsOf m : ℤ) ∧ 0 ≤ p.y ∧ p.y < (rowsOf m : ℤ) := by
  unfold latticePts
  rw [List.mem_flatten]
  constructor
  · rintro ⟨l, hl, hpl⟩
    rw [List.mem_map] at hl
    obtain ⟨y, hy, rfl⟩ := hl
    rw [List.mem_range] at hy
    rw [List.mem_map] at hpl
    obtain ⟨x, hx, rfl⟩ := hpl
    rw [List.mem_range] at hx
    dsimp only
    exact ⟨by omega, by omega, by omega, by omega⟩
  · rintro ⟨hx0, hxc, hy0, hyr⟩
    refine ⟨_, List.mem_map.mpr ⟨p.y.toNat, List.mem_range.mpr (by omega), rfl⟩, ?_⟩
    rw [List.mem_map]
    exact ⟨p.x.toNat, List.mem_range.mpr (by omega),
      by rw [Int.toNat_of_nonneg hx0, Int.toNat_of_nonneg hy0]⟩

theorem latticePts_length (m : Grid) :
    (latticePts m).length = rowsOf m * colsOf m := by
  unfold latticePts
  rw [List.length_flatten, List.map_map]
  have : ((List.range (rowsOf m)).map
      ((fun l : List Pt => l.length) ∘ fun (y : ℕ) => (List.range (colsOf m)).map
        (fun (x : ℕ) => (⟨(x : ℤ), (y : ℤ)⟩ : Pt)))) =
      (List.range (rowsOf m)).map (fun _ => colsOf m) := by
    refine List.map_congr_left ?_
    intro y hy
    simp [Function.comp]
  rw [this, List.map_const', List.sum_replicate, smul_eq_mul, List.length_range]

theorem countP_lt_of_flip {α : Type} (p q : α → Bool) {l : List α} {a : α}
    (ha : a ∈ l) (hpa : p a = true) (hqa : q a = false)
    (himp : ∀ b ∈ l, q b = true → p b = true) :
    l.countP q < l.countP p := by
  obtain ⟨l₁, l₂, rfl⟩ := List.append_of_mem ha
  have h1 : l₁.countP q ≤ l₁.countP p :=
    List.countP_mono_left (fun b hb => himp b (by simp [hb]))
  have h2 : l₂.countP q ≤ l₂.countP p :=
    List.countP_mono_left (fun b hb => himp b (by simp [hb]))
  rw [List.countP_append, List.countP_append, List.countP_cons, List.countP_cons,
    hpa, hqa, if_pos rfl, if_neg (fun h => Bool.noConfusion h)]
  omega

theorem bfsVisit_measure (m : Grid) (c : Pt) (s : BfsSt)
    (hge : -1 ≤ s.dist c) (d : ℤ × ℤ) :
    bfsMeasure m (bfsVisit m c s d) ≤ bfsMeasure m s := by
  unfold bfsVisit
  dsimp only
  by_cases h1 : ¬ isWalkable m (c.x + d.1) (c.y + d.2) = true
  · rw [if_pos h1]
  · rw [if_neg h1]
    by_cases h2 : s.dist ⟨c.x + d.1, c.y + d.2⟩ ≠ -1
    · rw [if_pos h2]
    · rw [if_neg h2]
      push_neg at h1 h2
      have hw := isWalkable_eq_true.mp h1
      have hmem : (⟨c.x + d.1, c.y + d.2⟩ : Pt) ∈ latticePts m := by
        rw [latticePts_mem]
        exact ⟨hw.1, hw.2.1, hw.2.2.1, hw.2.2.2.1⟩
      unfold bfsMeasure unassignedCount
      dsimp only
      rw [List.length_append, List.length_singleton]
      have hcnt : (latticePts m).countP
            (fun p => decide ((if p = (⟨c.x + d.1, c.y + d.2⟩ : Pt) then s.dist c + 1
              else s.dist p) = -1)) <
          (latticePts m).countP (fun p => decide (s.dist p = -1)) := by
        refine countP_lt_of_flip _ _ hmem ?_ ?_ ?_
        · simpa using h2
        · rw [if_pos rfl]
          simp only [decide_eq_false_iff_not]
          omega
        · intro b hb hqb
          by_cases hba : b = (⟨c.x + d.1, c.y + d.2⟩ : Pt)
          · rw [if_pos hba] at hqb
            simp only [decide_eq_true_eq] at hqb
            omega
          · rw [if_neg hba] at hqb
            exact hqb
      omega

theorem bfsStep_measure (m : Grid) (s : BfsSt) (hge : ∀ p, -1 ≤ s.dist p)
    (hne : s.q ≠ []) : bfsMeasure m (bfsStep m s) < bfsMeasure m s := by
  unfold bfsStep
  cases hq : s.q with
  | nil => exact absurd hq hne
  | cons c rest =>
    have hfold : ∀ (ds : List (ℤ × ℤ)) (t : BfsSt), (∀ p, -1 ≤ t.dist p) →
        bfsMeasure m (ds.foldl (bfsVisit m c) t) ≤ bfsMeasure m t := by
      intro ds
      induction ds with
      | nil => exact fun t _ => le_rfl
      | cons d ds ih =>
        intro t ht
        rw [List.foldl_cons]
        exact le_trans (ih _ (bfsVisit_ge ht d)) (bfsVisit_measure m c t (ht c) d)
    refine lt_of_le_of_lt (hfold bfsDirs { dist := s.dist, q := rest } hge) ?_
    unfold bfsMeasure
    dsimp only
    rw [hq]
    simp only [List.length_cons]
    omega

theorem bfsLoop_drain (m : Grid) :
    ∀ (fuel : ℕ) (s : BfsSt), (∀ p, -1 ≤ s.dist p) → bfsMeasure m s ≤ fuel →
      (bfsLoop m fuel s).q = []
  | 0, s, _, hm => by
    have h1 : s.q.length = 0 := by
      unfold bfsMeasure at hm
      omega
    exact List.length_eq_zero.mp h1
  | fuel + 1, s, hge, hm => by
    unfold bfsLoop
    by_cases hq : s.q = []
    · rw [if_pos hq]
      exact hq
    · rw [if_neg hq]
      refine bfsLoop_drain m fuel _ (bfsStep_ge hge) ?_
      have := bfsStep_measure m s hge hq
      omega


/-! ## BFS correctness: the loop invariant -/

theorem bfs_path_lower {m : Grid} {src : Pt} {s : BfsSt} (hInv : BfsInv m src s) :
    ∀ {k : ℕ} {e : Pt}, ReachN m src k e → s.dist e = -1 →
      ∃ v ∈ s.q, ∃ j : ℕ, ReachN m src j v ∧ s.dist v ≤ (j : ℤ) ∧ j < k := by
  intro k e hreach
  induction hreach with
  | zero => intro he; exact absurd he hInv.srcA
  | succ h hstep ih =>
    intro he
    rename_i n p q
    by_cases hp : s.dist p = -1
    · obtain ⟨v, hv, j, hj1, hj2, hj3⟩ := ih hp
      exact ⟨v, hv, j, hj1, hj2, by omega⟩
    · by_cases hpq : p ∈ s.q
      · refine ⟨p, hpq, n, h, ?_, by omega⟩
        obtain ⟨n₀, hr₀, heq₀, hleast₀⟩ := hInv.exact p hp
        rw [heq₀]
        exact_mod_cast hleast₀ n h
      · exact absurd (hInv.processed p hp hpq q hstep) (by simpa using he)


theorem bfsVisit_mid {m : Grid} {src : Pt} {s₀ : BfsSt} {c : Pt} {rest : List Pt}
    (hInv : BfsInv m src s₀) (hq0 : s₀.q = c :: rest) {s : BfsSt}
    (hmid : BfsMid m src s₀ c rest s) {d : ℤ × ℤ} (hd : d ∈ bfsDirs) :
    BfsMid m src s₀ c rest (bfsVisit m c s d) ∧
      (∀ p, s.dist p ≠ -1 → (bfsVisit m c s d).dist p ≠ -1) ∧
      (isWalkable m (c.x + d.1) (c.y + d.2) = true →
        (bfsVisit m c s d).dist ⟨c.x + d.1, c.y + d.2⟩ ≠ -1) := by
  have hcq : c ∈ s₀.q := by rw [hq0]; exact List.mem_cons_self c rest
  have hc0 : s₀.dist c ≠ -1 := hInv.qA c hcq
  have hdc : s.dist c = s₀.dist c := by
    rcases hmid.distRel c with h | ⟨hbad, -, -⟩
    · exact h
    · exact absurd hbad hc0
  obtain ⟨nc, hnc, hceq, hcleast⟩ := hInv.exact c hc0
  unfold bfsVisit
  dsimp only
  by_cases h1 : ¬ isWalkable m (c.x + d.1) (c.y + d.2) = true
  · rw [if_pos h1]
    exact ⟨hmid, fun p hp => hp, fun hw => absurd hw (by simpa using h1)⟩
  · rw [if_neg h1]
    push_neg at h1
    by_cases h2 : s.dist ⟨c.x + d.1, c.y + d.2⟩ ≠ -1
    · rw [if_pos h2]
      exact ⟨hmid, fun p hp => hp, fun _ => h2⟩
    · rw [if_neg h2]
      push_neg at h2
      set t : Pt := (⟨c.x + d.1, c.y + d.2⟩ : Pt) with ht
      have ht0 : s₀.dist t = -1 := by
        rcases hmid.distRel t with h | ⟨-, -, hnew⟩
        · rw [← h]; exact h2
        · rw [hnew] at h2
          rw [hceq] at h2
          exact absurd h2 (by omega)
      have hstep : AdjStep m c t := ⟨⟨d, hd, ht⟩, h1⟩
      refine ⟨⟨?_, ?_, ?_⟩, ?_, ?_⟩
      · intro p
        dsimp only
        by_cases hpt : p = t
        · subst hpt
          rw [if_pos rfl]
          exact Or.inr ⟨ht0, hstep, by rw [hdc]⟩
        · rw [if_neg hpt]
          exact hmid.distRel p
      · obtain ⟨new, hq, hval, hmem⟩ := hmid.qStruct
        refine ⟨new ++ [t], ?_, ?_, ?_⟩
        · dsimp only
          rw [hq, List.append_assoc]
        · intro x hx
          dsimp only
          rcases List.mem_append.mp hx with hx | hx
          · have hvx := hval x hx
            have hxt : x ≠ t := by
              intro hh
              rw [hh, h2] at hvx
              rw [hceq] at hvx
              omega
            rw [if_neg hxt, hvx]
          · rw [List.mem_singleton] at hx
            subst hx
            rw [if_pos rfl, hdc]
        · intro p hp0 hpn
          dsimp only at hpn
          by_cases hpt : p = t
          · subst hpt
            exact List.mem_append.mpr (Or.inr (List.mem_singleton.mpr rfl))
          · rw [if_neg hpt] at hpn
            exact List.mem_append.mpr (Or.inl (hmem p hp0 hpn))
      · intro p hp
        dsimp only at hp ⊢
        by_cases hpt : p = t
        · subst hpt
          rw [if_pos rfl]
          refine ⟨nc + 1, ReachN.succ hnc hstep, ?_, ?_⟩
          · rw [hdc, hceq]
            push_cast
            ring
          · intro k hk
            obtain ⟨v, hv, j, hj1, hj2, hj3⟩ := bfs_path_lower hInv hk ht0
            have hcv : s₀.dist c ≤ s₀.dist v := by
              rw [hq0] at hv
              rcases List.mem_cons.mp hv with rfl | hv'
              · exact le_rfl
              · exact (List.pairwise_cons.mp (hq0 ▸ hInv.qSorted)).1 v hv'
            rw [hceq] at hcv
            omega
        · rw [if_neg hpt] at hp ⊢
          exact hmid.exact p hp
      · intro p hp
        dsimp only
        by_cases hpt : p = t
        · subst hpt
          rw [if_pos rfl, hdc, hceq]
          omega
        · rw [if_neg hpt]
          exact hp
      · intro _
        dsimp only
        rw [if_pos rfl, hdc, hceq]
        omega


theorem bfsVisits_fold {m : Grid} {src : Pt} {s₀ : BfsSt} {c : Pt} {rest : List Pt}
    (hInv : BfsInv m src s₀) (hq0 : s₀.q = c :: rest) :
    ∀ (ds : List (ℤ × ℤ)), (∀ d ∈ ds, d ∈ bfsDirs) → ∀ (s : BfsSt),
      BfsMid m src s₀ c rest s →
      BfsMid m src s₀ c rest (ds.foldl (bfsVisit m c) s) ∧
        (∀ p, s.dist p ≠ -1 → (ds.foldl (bfsVisit m c) s).dist p ≠ -1) ∧
        (∀ d ∈ ds, isWalkable m (c.x + d.1) (c.y + d.2) = true →
          (ds.foldl (bfsVisit m c) s).dist ⟨c.x + d.1, c.y + d.2⟩ ≠ -1) := by
  intro ds
  induction ds with
  | nil =>
    intro _ s hmid
    exact ⟨hmid, fun p hp => hp, fun d hd => absurd hd (List.not_mem_nil d)⟩
  | cons d ds ih =>
    intro hds s hmid
    rw [List.foldl_cons]
    have hv := bfsVisit_mid hInv hq0 hmid (hds d (List.mem_cons_self d ds))
    have hrec := ih (fun e he => hds e (List.mem_cons_of_mem d he)) _ hv.1
    refine ⟨hrec.1, fun p hp => hrec.2.1 p (hv.2.1 p hp), ?_⟩
    intro e he hw
    rcases List.mem_cons.mp he with rfl | he'
    · exact hrec.2.1 _ (hv.2.2 hw)
    · exact hrec.2.2 e he' hw

theorem bfsStep_inv {m : Grid} {src : Pt} {s : BfsSt} (hInv : BfsInv m src s) :
    BfsInv m src (bfsStep m s) := by
  unfold bfsStep
  cases hq : s.q with
  | nil => exact hInv
  | cons c rest =>
    have hmid0 : BfsMid m src s c rest { dist := s.dist, q := rest } := by
      refine ⟨fun p => Or.inl rfl, ⟨[], by simp, ?_, ?_⟩, hInv.exact⟩
      · intro x hx
        exact absurd hx (List.not_mem_nil x)
      · intro p h1 h2
        exact absurd h1 h2
    have hfold := bfsVisits_fold hInv hq bfsDirs (fun d hd => hd) _ hmid0
    set s₁ := bfsDirs.foldl (bfsVisit m c) { dist := s.dist, q := rest } with hs₁
    obtain ⟨hmid, hmono, htgt⟩ := hfold
    obtain ⟨new, hq1, hval, hnewMem⟩ := hmid.qStruct
    have hcq : c ∈ s.q := by rw [hq]; exact List.mem_cons_self c rest
    have hc0 : s.dist c ≠ -1 := hInv.qA c hcq
    obtain ⟨nc, hnc, hceq, -⟩ := hInv.exact c hc0
    have hrestVal : ∀ x ∈ rest, s₁.dist x = s.dist x := by
      intro x hx
      rcases hmid.distRel x with h | ⟨hbad, -, -⟩
      · exact h
      · exact absurd hbad (hInv.qA x (by rw [hq]; exact List.mem_cons_of_mem c hx))
    have hnewVal : ∀ x ∈ new, s₁.dist x = s.dist c + 1 := hval
    have hsorted0 : (c :: rest).Pairwise (fun a b => s.dist a ≤ s.dist b) :=
      hq ▸ hInv.qSorted
    have hbound0 : ∀ a ∈ c :: rest, ∀ b ∈ c :: rest, s.dist b ≤ s.dist a + 1 := by
      intro a ha b hb
      exact hInv.qBound a (by rw [hq]; exact ha) b (by rw [hq]; exact hb)
    have hheadle : ∀ b ∈ rest, s.dist c ≤ s.dist b :=
      (List.pairwise_cons.mp hsorted0).1
    refine ⟨?_, hmid.exact, ?_, ?_, ?_, ?_⟩
    · exact hmono src hInv.srcA
    · intro x hx
      rw [hq1] at hx
      rcases List.mem_append.mp hx with hx | hx
      · exact hmono x (hInv.qA x (by rw [hq]; exact List.mem_cons_of_mem c hx))
      · rw [hnewVal x hx, hceq]
        omega
    · rw [hq1, List.pairwise_append]
      refine ⟨?_, ?_, ?_⟩
      · refine List.Pairwise.imp_of_mem ?_ (List.pairwise_cons.mp hsorted0).2
        intro a b ha hb hab
        rw [hrestVal a ha, hrestVal b hb]
        exact hab
      · refine List.Pairwise.imp_of_mem ?_
          (List.pairwise_of_forall (fun _ _ => trivial) (l := new) (R := fun _ _ => True))
        intro a b ha hb _
        rw [hnewVal a ha, hnewVal b hb]
      · intro a ha b hb
        rw [hrestVal a ha, hnewVal b hb]
        have := hbound0 c (List.mem_cons_self c rest) a (List.mem_cons_of_mem c ha)
        omega
    · intro a ha b hb
      rw [hq1] at ha hb
      rcases List.mem_append.mp ha with ha' | ha' <;>
        rcases List.mem_append.mp hb with hb' | hb'
      · rw [hrestVal a ha', hrestVal b hb']
        exact hbound0 a (List.mem_cons_of_mem c ha') b (List.mem_cons_of_mem c hb')
      · rw [hrestVal a ha', hnewVal b hb']
        have := hheadle a ha'
        omega
      · rw [hnewVal a ha', hrestVal b hb']
        have := hbound0 c (List.mem_cons_self c rest) b (List.mem_cons_of_mem c hb')
        omega
      · rw [hnewVal a ha', hnewVal b hb']
        omega
    · intro p hp hpq
      by_cases hpc : p = c
      · subst hpc
        intro e hstep
        obtain ⟨⟨d, hd, rfl⟩, hw⟩ := hstep
        exact htgt d hd hw
      · intro e hstep
        by_cases hps : s.dist p = -1
        · exact absurd
            (by rw [hq1]; exact List.mem_append.mpr (Or.inr (hnewMem p hps hp))) hpq
        · have hpq0 : p ∉ s.q := by
            rw [hq]
            intro hmem
            rcases List.mem_cons.mp hmem with h' | hmem'
            · exact hpc h'
            · exact hpq (by rw [hq1]; exact List.mem_append.mpr (Or.inl hmem'))
          exact hmono e (hInv.processed p hps hpq0 e hstep)

theorem ReachN_zero_eq {m : Grid} {src c : Pt} (h : ReachN m src 0 c) : c = src := by
  cases h
  rfl

theorem bfsLoop_inv {m : Grid} {src : Pt} :
    ∀ (fuel : ℕ) (s : BfsSt), BfsInv m src s → BfsInv m src (bfsLoop m fuel s)
  | 0, _, h => h
  | fuel + 1, s, h => by
    unfold bfsLoop
    by_cases hq : s.q = []
    · rw [if_pos hq]; exact h
    · rw [if_neg hq]
      exact bfsLoop_inv fuel _ (bfsStep_inv h)

theorem bfsInit_inv (m : Grid) (src : Pt) :
    BfsInv m src { dist := fun p => if p = src then 0 else -1, q := [src] } := by
  refine ⟨?_, ?_, ?_, ?_, ?_, ?_⟩
  · dsimp only
    rw [if_pos rfl]
    omega
  · intro c hc
    dsimp only at hc ⊢
    by_cases hcs : c = src
    · subst hcs
      rw [if_pos rfl]
      exact ⟨0, ReachN.zero, by norm_num, fun k _ => Nat.zero_le k⟩
    · rw [if_neg hcs] at hc
      exact absurd rfl hc
  · intro c hc
    rw [List.mem_singleton] at hc
    subst hc
    dsimp only
    rw [if_pos rfl]
    omega
  · exact List.pairwise_singleton _ _
  · intro a ha b hb
    rw [List.mem_singleton] at ha hb
    subst ha
    subst hb
    omega
  · intro p hp hpq
    dsimp only at hp
    by_cases hps : p = src
    · subst hps
      exact absurd (List.mem_singleton.mpr rfl) hpq
    · rw [if_neg hps] at hp
      exact absurd rfl hp

theorem bfsDistances_spec (m : Grid) (src : Pt) :
    (∀ c : Pt, bfsDistances m src c ≠ -1 →
      ∃ n : ℕ, ReachN m src n c ∧ bfsDistances m src c = (n : ℤ) ∧
        ∀ k : ℕ, ReachN m src k c → n ≤ k) ∧
    (∀ (n : ℕ) (c : Pt), ReachN m src n c → bfsDistances m src c ≠ -1) := by
  have hInv := @bfsLoop_inv m src (bfsFuel m) _ (bfsInit_inv m src)
  have hge : ∀ p : Pt, -1 ≤ (fun p => if p = src then (0 : ℤ) else -1) p := by
    intro p
    dsimp only
    split_ifs <;> omega
  have hq : (bfsLoop m (bfsFuel m)
      { dist := fun p => if p = src then 0 else -1, q := [src] }).q = [] := by
    refine bfsLoop_drain m (bfsFuel m) _ hge ?_
    unfold bfsMeasure bfsFuel
    have h1 := List.countP_le_length
      (fun p => decide ((if p = src then (0 : ℤ) else -1) = -1)) (l := latticePts m)
    have h2 := latticePts_length m
    unfold unassignedCount
    dsimp only
    simp only [List.length_singleton]
    omega
  unfold bfsDistances
  constructor
  · exact hInv.exact
  · intro n c hr
    induction hr with
    | zero => exact hInv.srcA
    | succ h hstep ih =>
      exact hInv.processed _ ih (by rw [hq]; exact List.not_mem_nil _) _ hstep

/-- C9: for every grid and every pair of PASSAGE cells `a`, `b` with `b`
reachable from `a`, the BFS distance maps are symmetric:
`bfsDistances(a)[b] = bfsDistances(b)[a]`. -/
theorem C9_bfs_symmetry (m : Grid) (a b : Pt)
    (ha : isWalkable m a.x a.y = true) (hb : isWalkable m b.x b.y = true)
    (hreach : bfsDistances m a b ≠ -1) :
    bfsDistances m a b = bfsDistances m b a := by
  obtain ⟨n, hn, heq, hleast⟩ := (bfsDistances_spec m a).1 b hreach
  have hrev : ReachN m b n a := ReachN_reverse ha hn
  have hb' : bfsDistances m b a ≠ -1 := (bfsDistances_spec m b).2 n a hrev
  obtain ⟨k, hk, heq2, hleast2⟩ := (bfsDistances_spec m b).1 a hb'
  have h1 : k ≤ n := hleast2 n hrev
  have h2 : n ≤ k := hleast k (ReachN_reverse hb hk)
  rw [heq, heq2]
  omega

/-- Witness for C9 on a two-cell corridor. -/
theorem C9_bfs_symmetry_witness :
    bfsDistances [[0, 0]] ⟨0, 0⟩ ⟨1, 0⟩ = bfsDistances [[0, 0]] ⟨1, 0⟩ ⟨0, 0⟩ :=
  C9_bfs_symmetry [[0, 0]] ⟨0, 0⟩ ⟨1, 0⟩ (by decide) (by decide) (by decide)

/-- C4 (amended): for an in-bounds WALL source, `bfsDistances` marks the
source 0 and *does* propagate: the walkability test applies to the target
cell only, so every walkable 4-neighbour of the source receives distance 1;
only when the source has no walkable neighbour does nothing propagate
(every other cell stays at −1). -/
theorem C4_wall_source (m : Grid) (src : Pt)
    (hin : 0 ≤ src.x ∧ src.x < (colsOf m : ℤ) ∧ 0 ≤ src.y ∧ src.y < (rowsOf m : ℤ))
    (hwall : gridGet m src.x src.y ≠ some 0) :
    bfsDistances m src src = 0 ∧
    (∀ d ∈ bfsDirs, isWalkable m (src.x + d.1) (src.y + d.2) = true →
      bfsDistances m src ⟨src.x + d.1, src.y + d.2⟩ = 1) ∧
    ((∀ d ∈ bfsDirs, isWalkable m (src.x + d.1) (src.y + d.2) = false) →
      ∀ c : Pt, c ≠ src → bfsDistances m src c = -1) := by
  have hsrcw : isWalkable m src.x src.y = false := by
    rw [← Bool.not_eq_true]
    intro hw
    exact hwall (isWalkable_eq_true.mp hw).2.2.2.2
  refine ⟨?_, ?_, ?_⟩
  · obtain ⟨n, hn, heq, hleast⟩ :=
      (bfsDistances_spec m src).1 src ((bfsDistances_spec m src).2 0 src ReachN.zero)
    have := hleast 0 ReachN.zero
    rw [heq]
    omega
  · intro d hd hw
    have hstep : AdjStep m src ⟨src.x + d.1, src.y + d.2⟩ := ⟨⟨d, hd, rfl⟩, hw⟩
    have hr1 : ReachN m src 1 ⟨src.x + d.1, src.y + d.2⟩ :=
      ReachN.succ ReachN.zero hstep
    obtain ⟨n, hn, heq, hleast⟩ :=
      (bfsDistances_spec m src).1 _ ((bfsDistances_spec m src).2 1 _ hr1)
    have hle := hleast 1 hr1
    have hn0 : n ≠ 0 := by
      intro h0
      subst h0
      have heqp := ReachN_zero_eq hn
      have hx : src.x + d.1 = src.x := congrArg Pt.x heqp
      have hy : src.y + d.2 = src.y := congrArg Pt.y heqp
      rw [hx, hy, hsrcw] at hw
      cases hw
    rw [heq]
    omega
  · intro hnone c hc
    by_contra hcne
    obtain ⟨n, hn, -, -⟩ := (bfsDistances_spec m src).1 c hcne
    rcases ReachN_first_step hn with h' | ⟨e, hstep⟩
    · exact hc h'
    · obtain ⟨⟨d, hd, rfl⟩, hw⟩ := hstep
      rw [hnone d hd] at hw
      cases hw

set_option maxRecDepth 40000 in
/-- Witness for C4 (amended) on a 3×3 grid with a WALL centre: the walkable
neighbour (2,1) of the wall source (1,1) gets distance 1. -/
theorem C4_wall_source_witness :
    bfsDistances mazeC4 ⟨1, 1⟩ ⟨(1 : ℤ) + 1, (1 : ℤ) + 0⟩ = 1 :=
  (C4_wall_source mazeC4 ⟨1, 1⟩ (by decide) (by decide)).2.1 (1, 0)
    (by decide) (by decide)

set_option maxRecDepth 40000 in
/-- C4 counterexample: with the WALL source (1,1) on this grid, the walkable
cell (2,1) is *not* marked UNREACHABLE — BFS propagated out of the wall
source, because the walkability test applies only to the target cell. -/
theorem C4_wall_source_counterexample :
    gridGet mazeC4 1 1 ≠ some 0 ∧
    (⟨2, 1⟩ : Pt) ≠ (⟨1, 1⟩ : Pt) ∧
    bfsDistances mazeC4 ⟨1, 1⟩ ⟨2, 1⟩ ≠ -1 := by
  refine ⟨by decide, by decide, by decide⟩


theorem oddify_ge3 {n : ℕ} (hn : 2 ≤ n) : 3 ≤ oddify n := by
  unfold oddify
  split_ifs with h <;> omega

theorem findCarve_some {g : Grid} {w h : ℕ} {cur : Pt} :
    ∀ {l : List (ℤ × ℤ)} {d : ℤ × ℤ}, findCarve g w h cur l = some d →
      d ∈ l ∧ 0 < cur.x + d.1 ∧ cur.x + d.1 < (w : ℤ) - 1 ∧
        0 < cur.y + d.2 ∧ cur.y + d.2 < (h : ℤ) - 1 ∧
        gridGet g (cur.x + d.1) (cur.y + d.2) ≠ some 0
  | [], d, hfc => by cases hfc
  | e :: l, d, hfc => by
    unfold findCarve at hfc
    dsimp only at hfc
    by_cases h1 : cur.x + e.1 ≤ 0 ∨ cur.y + e.2 ≤ 0 ∨
        cur.x + e.1 ≥ (w : ℤ) - 1 ∨ cur.y + e.2 ≥ (h : ℤ) - 1
    · rw [if_pos h1] at hfc
      obtain ⟨hm, rest⟩ := findCarve_some hfc
      exact ⟨List.mem_cons_of_mem e hm, rest⟩
    · rw [if_neg h1] at hfc
      by_cases h2 : gridGet g (cur.x + e.1) (cur.y + e.2) = some 0
      · rw [if_pos h2] at hfc
        obtain ⟨hm, rest⟩ := findCarve_some hfc
        exact ⟨List.mem_cons_of_mem e hm, rest⟩
      · rw [if_neg h2] at hfc
        cases hfc
        push_neg at h1
        obtain ⟨ha, hb, hc, hd⟩ := h1
        exact ⟨List.mem_cons_self e l, ha, hc, hb, hd, h2⟩

theorem keep11_carve {g : Grid} {x y : ℤ} (hk : Keep11 g)
    (hx : 1 ≤ x) (hy : 1 ≤ y) : Keep11 (carve g x y) := by
  obtain ⟨h11, h01, h10⟩ := hk
  unfold carve
  refine ⟨?_, ?_, ?_⟩
  · rcases gridGet_gridSet_cases g 1 1 x y 0 with hc | ⟨-, -, hc⟩
    · rw [hc]; exact h11
    · exact hc
  · rw [gridGet_gridSet_ne (Or.inl (by omega))]
    exact h01
  · rw [gridGet_gridSet_ne (Or.inr (by omega))]
    exact h10

theorem keep11_carveStep {w h : ℕ} (sh : List (ℤ × ℤ)) {s : CarveSt}
    (hk : Keep11 s.g) (hst : ∀ p ∈ s.stack, 1 ≤ p.x ∧ 1 ≤ p.y) :
    Keep11 (carveStep w h sh s).g ∧
      ∀ p ∈ (carveStep w h sh s).stack, 1 ≤ p.x ∧ 1 ≤ p.y := by
  obtain ⟨g, stack⟩ := s
  cases stack with
  | nil => exact ⟨hk, hst⟩
  | cons cur rest =>
    simp only [carveStep]
    cases hfc : findCarve g w h cur sh with
    | none =>
      exact ⟨hk, fun p hp => hst p (List.mem_cons_of_mem cur hp)⟩
    | some d =>
      obtain ⟨-, hnx, -, hny, -, -⟩ := findCarve_some hfc
      have hcur := hst cur (List.mem_cons_self cur rest)
      obtain ⟨hcx, hcy⟩ := hcur
      dsimp only
      constructor
      · exact keep11_carve (keep11_carve hk (by omega) (by omega)) (by omega) (by omega)
      · intro p hp
        rcases List.mem_cons.mp hp with hp | hp
        · subst hp
          exact ⟨by dsimp only; omega, by dsimp only; omega⟩
        · exact hst p hp

theorem keep11_carveLoop {w h : ℕ} (shuf : ℕ → List (ℤ × ℤ)) :
    ∀ (fuel i : ℕ) (s : CarveSt), Keep11 s.g →
      (∀ p ∈ s.stack, 1 ≤ p.x ∧ 1 ≤ p.y) → Keep11 (carveLoop w h shuf fuel i s).g := by
  intro fuel
  induction fuel with
  | zero => intro i s hk _; exact hk
  | succ fuel ih =>
    intro i s hk hst
    unfold carveLoop
    by_cases hq : s.stack = []
    · rw [if_pos hq]; exact hk
    · rw [if_neg hq]
      obtain ⟨hk2, hst2⟩ := keep11_carveStep (shuf i) hk hst
      exact ih (i + 1) _ hk2 hst2

theorem keep11_carvePhase {w h : ℕ} (shuf : ℕ → List (ℤ × ℤ))
    (hw : 2 ≤ w) (hh : 2 ≤ h) : Keep11 (carvePhase w h shuf).g := by
  unfold carvePhase
  dsimp only
  apply keep11_carveLoop
  · unfold carve
    refine ⟨?_, ?_, ?_⟩
    · exact gridGet_gridSet_self 0
        (gridGet_replicate (by omega) (by omega) (by omega) (by omega))
    · rw [gridGet_gridSet_ne (Or.inl (by omega))]
      exact gridGet_replicate (by omega) (by omega) (by omega) (by omega)
    · rw [gridGet_gridSet_ne (Or.inr (by omega))]
      exact gridGet_replicate (by omega) (by omega) (by omega) (by omega)
  · intro p hp
    rw [List.mem_singleton] at hp
    subst hp
    exact ⟨le_refl 1, le_refl 1⟩

theorem keep11_rewallStep {w h : ℕ} {g : Grid} (hk : Keep11 g) (r : ℕ × ℕ × Bool) :
    Keep11 (rewallStep w h g r) := by
  obtain ⟨h11, h01, h10⟩ := hk
  unfold rewallStep
  dsimp only
  generalize hgx : (1 + ((r.1 % (w - 2) : ℕ) : ℤ)) = x
  generalize hgy : (1 + ((r.2.1 % (h - 2) : ℕ) : ℤ)) = y
  have hx1 : 1 ≤ x := by omega
  have hy1 : 1 ≤ y := by omega
  by_cases h0 : gridGet g x y ≠ some 0
  · rw [if_pos h0]
    exact ⟨h11, h01, h10⟩
  · rw [if_neg h0]
    by_cases h1 : 3 ≤ openN g x y ∧ r.2.2 = true
    · rw [if_pos h1]
      by_cases hxy : x = 1 ∧ y = 1
      · exfalso
        obtain ⟨hxe, hye⟩ := hxy
        subst hxe
        subst hye
        have hopen : openN g 1 1 ≤ 2 := by
          unfold openN
          have e0 : (1 : ℤ) - 1 = 0 := by norm_num
          have e2 : (1 : ℤ) + 1 = 2 := by norm_num
          rw [e0, e2, h10, h01]
          have n1 : ¬(some 1 = some (0 : ℕ)) := by simp
          rw [if_neg n1]
          split_ifs <;> omega
        have := h1.1
        omega
      · have hne1 : (1 : ℤ) ≠ x ∨ (1 : ℤ) ≠ y := by tauto
        refine ⟨?_, ?_, ?_⟩
        · rw [gridGet_gridSet_ne hne1]
          exact h11
        · rw [gridGet_gridSet_ne (Or.inl (by omega))]
          exact h01
        · rw [gridGet_gridSet_ne (Or.inr (by omega))]
          exact h10
    · rw [if_neg h1]
      exact ⟨h11, h01, h10⟩

theorem keep11_borderPhase {w h : ℕ} {g : Grid} (hw : 3 ≤ w) (hh : 3 ≤ h)
    (hk : gridGet g 1 1 = some 0) : gridGet (borderPhase w h g) 1 1 = some 0 := by
  unfold borderPhase
  refine foldl_pres (P := fun g => gridGet g 1 1 = some 0) ?_ _ _
    (foldl_pres (P := fun g => gridGet g 1 1 = some 0) ?_ _ _ hk)
  · intro g a hg
    rw [gridGet_gridSet_ne (Or.inl (by omega)), gridGet_gridSet_ne (Or.inl (by omega))]
    exact hg
  · intro g a hg
    rw [gridGet_gridSet_ne (Or.inr (by omega)), gridGet_gridSet_ne (Or.inr (by omega))]
    exact hg

/-- C10: for every requested width and height of at least 2 and all randomness,
cell (1,1) of the generated grid is PASSAGE — the carve loop opens it first and
only ever writes PASSAGE at cells with both coordinates ≥ 1, the soft re-wall
loop can never re-wall it because its two border neighbours keep `openN` below
the junction threshold 3, and the border-forcing pass does not touch it — so
`nearestPassage`'s fallback cell (1,1) is itself walkable. -/
theorem C10_origin_passage (w h : ℕ) (shuf : ℕ → List (ℤ × ℤ))
    (rw : ℕ → ℕ × ℕ × Bool) (hw : 2 ≤ w) (hh : 2 ≤ h) :
    gridGet (generatePerfectMaze w h shuf rw) 1 1 = some 0 ∧
      isWalkable (generatePerfectMaze w h shuf rw) 1 1 = true := by
  have hw3 := oddify_ge3 hw
  have hh3 := oddify_ge3 hh
  have hcarve := keep11_carvePhase (w := oddify w) (h := oddify h) shuf
    (by omega) (by omega)
  have hrw : Keep11 (rewallPhase (oddify w) (oddify h) rw
      (carvePhase (oddify w) (oddify h) shuf).g) := by
    unfold rewallPhase
    exact foldl_pres (P := Keep11)
      (fun g i hg => keep11_rewallStep hg (rw i)) _ _ hcarve
  have hfin : gridGet (generatePerfectMaze w h shuf rw) 1 1 = some 0 := by
    unfold generatePerfectMaze
    dsimp only
    exact keep11_borderPhase hw3 hh3 hrw.1
  refine ⟨hfin, ?_⟩
  unfold isWalkable
  rw [colsOf_generate, rowsOf_generate, if_neg (by omega), hfin]
  decide

/-- Witness for C10 at requested dimensions 4×4 with constant randomness. -/
theorem C10_origin_passage_witness :
    gridGet (generatePerfectMaze 4 4 (fun _ => carveDirs) (fun _ => (0, 0, true))) 1 1
        = some 0 ∧
      isWalkable (generatePerfectMaze 4 4 (fun _ => carveDirs) (fun _ => (0, 0, true))) 1 1
        = true :=
  C10_origin_passage 4 4 (fun _ => carveDirs) (fun _ => (0, 0, true))
    (by decide) (by decide)


theorem countP_agree {α : Type} {p q : α → Bool} :
    ∀ {l : List α}, (∀ b ∈ l, p b = q b) → l.countP p = l.countP q
  | [], _ => rfl
  | b :: t, hag => by
    rw [List.countP_cons, List.countP_cons, hag b (List.mem_cons_self b t),
      countP_agree (fun c hc => hag c (List.mem_cons_of_mem b hc))]

theorem countP_flip_one {α : Type} [DecidableEq α] {p q : α → Bool} {a : α} :
    ∀ {l : List α}, l.Nodup → a ∈ l → p a = true → q a = false →
      (∀ b ∈ l, b ≠ a → p b = q b) → l.countP p = l.countP q + 1
  | [], _, ha, _, _, _ => absurd ha (List.not_mem_nil a)
  | b :: t, hnd, ha, hpa, hqa, hag => by
    obtain ⟨hbt, hndt⟩ := List.nodup_cons.mp hnd
    rcases List.mem_cons.mp ha with rfl | ha2
    · rw [List.countP_cons, List.countP_cons, hpa, hqa]
      have he : t.countP p = t.countP q :=
        countP_agree (fun c hc =>
          hag c (List.mem_cons_of_mem a hc) (fun hce => hbt (hce ▸ hc)))
      rw [he]
      simp
    · have hba : b ≠ a := fun he => hbt (he ▸ ha2)
      rw [List.countP_cons, List.countP_cons, hag b (List.mem_cons_self b t) hba]
      have := countP_flip_one hndt ha2 hpa hqa
        (fun c hc hca => hag c (List.mem_cons_of_mem b hc) hca)
      omega

theorem count_set_zero :
    ∀ {row : List ℕ} {j : ℕ} {v : ℕ}, row.get? j = some v → v ≠ 0 →
      (row.set j 0).count 0 = row.count 0 + 1
  | [], _, _, hget, _ => by cases hget
  | a :: t, 0, v, hget, hv => by
    have hav : a = v := by injection hget
    subst hav
    have hne : ¬(a = 0) := hv
    simp [List.set_cons_zero, List.count_cons, hne]
  | a :: t, j + 1, v, hget, hv => by
    simp only [List.set_cons_succ, List.count_cons]
    rw [count_set_zero (by exact hget) hv]
    omega

theorem passCount_set_row :
    ∀ {g : Grid} {i : ℕ} {row : List ℕ} (row2 : List ℕ), g.get? i = some row →
      passCount (g.set i row2) + row.count 0 = passCount g + row2.count 0
  | [], _, _, _, hget => by cases hget
  | r :: t, 0, row, row2, hget => by
    have hrr : r = row := by injection hget
    subst hrr
    simp only [List.set_cons_zero]
    unfold passCount
    simp only [List.map_cons, List.sum_cons]
    omega
  | r :: t, i + 1, row, row2, hget => by
    simp only [List.set_cons_succ]
    unfold passCount
    simp only [List.map_cons, List.sum_cons]
    have := passCount_set_row (g := t) (i := i) row2 (by exact hget)
    unfold passCount at this
    omega

theorem passCount_set0 {g : Grid} {x y : ℤ} {v : ℕ}
    (hget : gridGet g x y = some v) (hv : v ≠ 0) :
    passCount (gridSet g x y 0) = passCount g + 1 := by
  unfold gridGet at hget
  by_cases hxy : 0 ≤ x ∧ 0 ≤ y
  · rw [if_pos hxy] at hget
    rw [Option.bind_eq_some] at hget
    obtain ⟨row, hrow, hcell⟩ := hget
    unfold gridSet
    rw [if_pos hxy, hrow]
    simp only [Option.getD_some]
    have hstep := passCount_set_row (g := g) (i := y.toNat)
      (row.set x.toNat 0) hrow
    rw [count_set_zero hcell hv] at hstep
    omega
  · rw [if_neg hxy] at hget
    exact absurd hget (by simp)

theorem pass_pres {g : Grid} {x y x2 y2 : ℤ} (h : gridGet g x y = some 0) :
    gridGet (gridSet g x2 y2 0) x y = some 0 := by
  rcases gridGet_gridSet_cases g x y x2 y2 0 with hc | ⟨-, -, hc⟩
  · rw [hc]; exact h
  · rw [hc]

theorem replicate_get_ne0 {w h : ℕ} {x y : ℤ} :
    gridGet (List.replicate h (List.replicate w 1)) x y ≠ some 0 := by
  unfold gridGet
  by_cases hxy : 0 ≤ x ∧ 0 ≤ y
  · rw [if_pos hxy]
    cases hrow : (List.replicate h (List.replicate w 1)).get? y.toNat with
    | none => simp
    | some r =>
      have hr : r = List.replicate w 1 :=
        List.eq_of_mem_replicate (List.get?_mem hrow)
      subst hr
      cases hcell : (List.replicate w 1).get? x.toNat with
      | none =>
        rw [List.get?_eq_getElem?] at hcell
        simp [hcell]
      | some v =>
        have hv : v = 1 := List.eq_of_mem_replicate (List.get?_mem hcell)
        subst hv
        rw [List.get?_eq_getElem?] at hcell
        simp [hcell]
  · rw [if_neg hxy]
    simp

theorem oddBelow_nodup (n : ℕ) : (oddBelow n).Nodup :=
  (List.nodup_range n).filter _

theorem oddRow_nodup (w : ℕ) (y : ℕ) :
    ((oddBelow w).map (fun (x : ℕ) => (⟨(x : ℤ), (y : ℤ)⟩ : Pt))).Nodup := by
  refine (oddBelow_nodup w).map ?_
  intro a b hab
  have := congrArg Pt.x hab
  dsimp only at this
  omega

theorem oddLattice_flat_nodup (w : ℕ) :
    ∀ {ys : List ℕ}, ys.Nodup →
      ((ys.map (fun (y : ℕ) => (oddBelow w).map
        (fun (x : ℕ) => (⟨(x : ℤ), (y : ℤ)⟩ : Pt)))).flatten).Nodup
  | [], _ => List.nodup_nil
  | y :: ys, hnd => by
    obtain ⟨hy, hnds⟩ := List.nodup_cons.mp hnd
    simp only [List.map_cons, List.flatten_cons]
    refine List.Nodup.append (oddRow_nodup w y) (oddLattice_flat_nodup w hnds) ?_
    intro p hp hq
    rw [List.mem_map] at hp
    obtain ⟨x, -, rfl⟩ := hp
    rw [List.mem_flatten] at hq
    obtain ⟨l, hl, hpl⟩ := hq
    rw [List.mem_map] at hl
    obtain ⟨y2, hy2, rfl⟩ := hl
    rw [List.mem_map] at hpl
    obtain ⟨x2, -, hpe⟩ := hpl
    have hyy : (y2 : ℤ) = (y : ℤ) := congrArg Pt.y hpe
    have : y2 = y := by omega
    exact hy (this ▸ hy2)

theorem oddLattice_nodup (w h : ℕ) : (oddLattice w h).Nodup :=
  oddLattice_flat_nodup w (oddBelow_nodup h)

theorem oddLattice_mem {w h : ℕ} {p : Pt} :
    p ∈ oddLattice w h ↔ OddInterior w h p := by
  unfold oddLattice OddInterior oddBelow
  rw [List.mem_flatten]
  constructor
  · rintro ⟨l, hl, hpl⟩
    rw [List.mem_map] at hl
    obtain ⟨y, hy, rfl⟩ := hl
    rw [List.mem_filter, List.mem_range] at hy
    rw [List.mem_map] at hpl
    obtain ⟨x, hx, rfl⟩ := hpl
    rw [List.mem_filter, List.mem_range] at hx
    obtain ⟨hxr, hxp⟩ := hx
    obtain ⟨hyr, hyp⟩ := hy
    rw [decide_eq_true_eq] at hxp hyp
    dsimp only
    refine ⟨by omega, by omega, by omega, by omega, by omega, by omega⟩
  · rintro ⟨h1, h2, h3, h4, h5, h6⟩
    refine ⟨_, List.mem_map.mpr ⟨p.y.toNat,
      List.mem_filter.mpr ⟨List.mem_range.mpr (by omega),
        decide_eq_true (by omega)⟩, rfl⟩, ?_⟩
    rw [List.mem_map]
    refine ⟨p.x.toNat, List.mem_filter.mpr ⟨List.mem_range.mpr (by omega),
      decide_eq_true (by omega)⟩, ?_⟩
    have hx := Int.toNat_of_nonneg (le_of_lt h3)
    have hy := Int.toNat_of_nonneg (le_of_lt h5)
    cases p
    dsimp only at hx hy ⊢
    rw [hx, hy]

theorem oddLattice_length (w h : ℕ) :
    (oddLattice w h).length = (oddBelow h).length * (oddBelow w).length := by
  unfold oddLattice
  rw [List.length_flatten, List.map_map]
  have : ((oddBelow h).map
      ((fun l : List Pt => l.length) ∘ fun (y : ℕ) => (oddBelow w).map
        (fun (x : ℕ) => (⟨(x : ℤ), (y : ℤ)⟩ : Pt)))) =
      (oddBelow h).map (fun _ => (oddBelow w).length) := by
    refine List.map_congr_left ?_
    intro y hy
    simp [Function.comp]
  rw [this, List.map_const', List.sum_replicate, smul_eq_mul]

theorem passAdj_symm {m : Grid} {p q : Pt} (h : PassAdj m p q) : PassAdj m q p :=
  ⟨h.2.1, h.1, by have := h.2.2; omega⟩

theorem reachP_symm {m : Grid} {p q : Pt} (h : ReachP m p q) : ReachP m q p :=
  Relation.ReflTransGen.symmetric (fun _ _ hab => passAdj_symm hab) h

theorem reachP_mono {g g2 : Grid}
    (hmono : ∀ x y : ℤ, gridGet g x y = some 0 → gridGet g2 x y = some 0)
    {p q : Pt} (h : ReachP g p q) : ReachP g2 p q :=
  Relation.ReflTransGen.mono
    (fun a b hab => ⟨hmono _ _ hab.1, hmono _ _ hab.2.1, hab.2.2⟩) h


theorem pt_ne_coords {p q : Pt} (h : p ≠ q) : p.x ≠ q.x ∨ p.y ≠ q.y := by
  by_cases hx : p.x = q.x
  · right
    intro hy
    apply h
    cases p
    cases q
    dsimp only at hx hy
    rw [hx, hy]
  · exact Or.inl hx

theorem findCarve_none {g : Grid} {w h : ℕ} {cur : Pt} :
    ∀ {l : List (ℤ × ℤ)}, findCarve g w h cur l = none → ∀ d ∈ l,
      (cur.x + d.1 ≤ 0 ∨ cur.y + d.2 ≤ 0 ∨ cur.x + d.1 ≥ (w : ℤ) - 1 ∨
        cur.y + d.2 ≥ (h : ℤ) - 1) ∨
      gridGet g (cur.x + d.1) (cur.y + d.2) = some 0
  | [], _, d, hd => absurd hd (List.not_mem_nil d)
  | e :: l, hfc, d, hd => by
    unfold findCarve at hfc
    dsimp only at hfc
    by_cases h1 : cur.x + e.1 ≤ 0 ∨ cur.y + e.2 ≤ 0 ∨
        cur.x + e.1 ≥ (w : ℤ) - 1 ∨ cur.y + e.2 ≥ (h : ℤ) - 1
    · rw [if_pos h1] at hfc
      rcases List.mem_cons.mp hd with rfl | hd2
      · exact Or.inl h1
      · exact findCarve_none hfc d hd2
    · rw [if_neg h1] at hfc
      by_cases h2 : gridGet g (cur.x + e.1) (cur.y + e.2) = some 0
      · rw [if_pos h2] at hfc
        rcases List.mem_cons.mp hd with rfl | hd2
        · exact Or.inr h2
        · exact findCarve_none hfc d hd2
      · rw [if_neg h2] at hfc
        cases hfc

theorem oddCounts_carve {w h : ℕ} {g : Grid} {mx my tx ty : ℤ}
    (hmpar : mx % 2 = 0 ∨ my % 2 = 0)
    (hne : tx ≠ mx ∨ ty ≠ my)
    (ht : OddInterior w h ⟨tx, ty⟩)
    (htw : gridGet g tx ty ≠ some 0)
    (htp : gridGet (gridSet (gridSet g mx my 0) tx ty 0) tx ty = some 0) :
    oddPassCount w h (gridSet (gridSet g mx my 0) tx ty 0) =
        oddPassCount w h g + 1 ∧
      oddWallCount w h g =
        oddWallCount w h (gridSet (gridSet g mx my 0) tx ty 0) + 1 := by
  have hg1 : ∀ b ∈ oddLattice w h,
      gridGet (gridSet g mx my 0) b.x b.y = gridGet g b.x b.y := by
    intro b hb
    obtain ⟨hbx, hby, -, -, -, -⟩ := oddLattice_mem.mp hb
    rcases hmpar with hm | hm
    · exact gridGet_gridSet_ne (Or.inl (by omega))
    · exact gridGet_gridSet_ne (Or.inr (by omega))
  have hg1t : gridGet (gridSet g mx my 0) tx ty = gridGet g tx ty :=
    gridGet_gridSet_ne hne
  have hg2 : ∀ b ∈ oddLattice w h, b ≠ (⟨tx, ty⟩ : Pt) →
      gridGet (gridSet (gridSet g mx my 0) tx ty 0) b.x b.y = gridGet g b.x b.y := by
    intro b hb hbne
    rw [gridGet_gridSet_ne (pt_ne_coords hbne), hg1 b hb]
  have hmem : (⟨tx, ty⟩ : Pt) ∈ oddLattice w h := oddLattice_mem.mpr ht
  constructor
  · unfold oddPassCount
    rw [← List.countP_eq_length_filter, ← List.countP_eq_length_filter]
    exact countP_flip_one
      (p := fun b : Pt =>
        decide (gridGet (gridSet (gridSet g mx my 0) tx ty 0) b.x b.y = some 0))
      (q := fun b : Pt => decide (gridGet g b.x b.y = some 0))
      (oddLattice_nodup w h) hmem (decide_eq_true htp) (decide_eq_false htw)
      (fun b hb hbne => by dsimp only; rw [hg2 b hb hbne])
  · unfold oddWallCount
    rw [← List.countP_eq_length_filter, ← List.countP_eq_length_filter]
    exact countP_flip_one
      (p := fun b : Pt => decide (gridGet g b.x b.y ≠ some 0))
      (q := fun b : Pt =>
        decide (gridGet (gridSet (gridSet g mx my 0) tx ty 0) b.x b.y ≠ some 0))
      (oddLattice_nodup w h) hmem (decide_eq_true htw)
      (decide_eq_false (fun hc => hc htp))
      (fun b hb hbne => by dsimp only; rw [hg2 b hb hbne])


theorem passCount_replicate (w h : ℕ) :
    passCount (List.replicate h (List.replicate w 1)) = 0 := by
  unfold passCount
  rw [List.map_replicate, List.count_replicate]
  simp

theorem cinv_init {w h : ℕ} (hw : 3 ≤ w) (hh : 3 ≤ h) :
    CInv w h { g := carve (List.replicate h (List.replicate w 1)) 1 1,
               stack := [⟨1, 1⟩] } := by
  have h11 : gridGet (carve (List.replicate h (List.replicate w 1)) 1 1) 1 1 = some 0 :=
    gridGet_gridSet_self 0
      (gridGet_replicate (by omega) (by omega) (by omega) (by omega))
  have honly : ∀ p : Pt,
      gridGet (carve (List.replicate h (List.replicate w 1)) 1 1) p.x p.y = some 0 →
        p = ⟨1, 1⟩ := by
    intro p hp
    unfold carve at hp
    rcases gridGet_gridSet_cases (List.replicate h (List.replicate w 1))
        p.x p.y 1 1 0 with hc | ⟨hx, hy, -⟩
    · rw [hc] at hp
      exact absurd hp replicate_get_ne0
    · cases p
      dsimp only at hx hy
      rw [hx, hy]
  have hodd11 : OddInterior w h (⟨1, 1⟩ : Pt) :=
    ⟨by decide, by decide, by decide, by dsimp only; omega, by decide,
      by dsimp only; omega⟩
  refine ⟨?_, h11, ?_, ?_, ?_, ?_, ?_, ?_⟩
  · exact (shaped_replicate w h).set 1 1 0
  · intro p hp
    rw [List.mem_singleton] at hp
    subst hp
    exact hodd11
  · intro p hp
    rw [List.mem_singleton] at hp
    subst hp
    exact h11
  · intro p hp
    rw [honly p hp]
    exact Or.inl hodd11
  · intro p hp
    rw [honly p hp]
    exact Relation.ReflTransGen.refl
  · intro p hpo hp hnst
    exact absurd (by rw [honly p hp]; exact List.mem_singleton.mpr rfl) hnst
  · have hpc : passCount (carve (List.replicate h (List.replicate w 1)) 1 1) = 1 := by
      have := passCount_set0
        (gridGet_replicate (w := w) (h := h) (x := 1) (y := 1)
          (by omega) (by omega) (by omega) (by omega)) one_ne_zero
      rw [passCount_replicate] at this
      exact this
    have hagree : ∀ b ∈ oddLattice w h, b ≠ (⟨1, 1⟩ : Pt) →
        gridGet (carve (List.replicate h (List.replicate w 1)) 1 1) b.x b.y =
          gridGet (List.replicate h (List.replicate w 1)) b.x b.y := by
      intro b hb hbne
      exact gridGet_gridSet_ne (pt_ne_coords hbne)
    have hopc :
        oddPassCount w h (carve (List.replicate h (List.replicate w 1)) 1 1) =
          oddPassCount w h (List.replicate h (List.replicate w 1)) + 1 := by
      unfold oddPassCount
      rw [← List.countP_eq_length_filter, ← List.countP_eq_length_filter]
      exact countP_flip_one
        (p := fun b : Pt =>
          decide (gridGet (carve (List.replicate h (List.replicate w 1)) 1 1)
            b.x b.y = some 0))
        (q := fun b : Pt =>
          decide (gridGet (List.replicate h (List.replicate w 1)) b.x b.y = some 0))
        (oddLattice_nodup w h) (oddLattice_mem.mpr hodd11) (decide_eq_true h11)
        (decide_eq_false replicate_get_ne0)
        (fun b hb hbne => by dsimp only; rw [hagree b hb hbne])
    have hzero : oddPassCount w h (List.replicate h (List.replicate w 1)) = 0 := by
      unfold oddPassCount
      rw [← List.countP_eq_length_filter]
      rw [List.countP_eq_zero]
      intro b hb
      simp only [decide_eq_true_eq]
      exact replicate_get_ne0
    dsimp only
    rw [hpc, hopc, hzero]


theorem gridGet_coord_congr {g : Grid} {x y x2 y2 : ℤ} (hx : x = x2) (hy : y = y2)
    (h : gridGet g x2 y2 = some 0) : gridGet g x y = some 0 := by
  rw [hx, hy]
  exact h

theorem cinv_carveStep {w h : ℕ} {sh : List (ℤ × ℤ)} {s : CarveSt}
    (hperm : sh.Perm carveDirs) (hinv : CInv w h s) :
    CInv w h (carveStep w h sh s) ∧
      (s.stack ≠ [] → carveMeasure w h (carveStep w h sh s) < carveMeasure w h s) := by
  obtain ⟨g, stack⟩ := s
  cases stack with
  | nil => exact ⟨hinv, fun hne => absurd rfl hne⟩
  | cons cur rest =>
    simp only [carveStep]
    cases hfc : findCarve g w h cur sh with
    | none =>
      refine ⟨⟨hinv.shaped, hinv.origin, ?_, ?_, hinv.kind, hinv.conn, ?_,
        hinv.count⟩, ?_⟩
      · exact fun p hp => hinv.stackOdd p (List.mem_cons_of_mem cur hp)
      · exact fun p hp => hinv.stackPass p (List.mem_cons_of_mem cur hp)
      · intro p hpo hp hnst e he hbb1 hbb2 hbb3 hbb4
        by_cases hpc : p = cur
        · subst hpc
          rcases findCarve_none hfc e (hperm.mem_iff.mpr he) with hoob | hcarved
          · exfalso
            omega
          · exact hcarved
        · refine hinv.closed p hpo hp ?_ e he hbb1 hbb2 hbb3 hbb4
          intro hmem
          rcases List.mem_cons.mp hmem with hee | hee
          · exact hpc hee
          · exact hnst hee
      · intro hne
        unfold carveMeasure
        dsimp only
        simp only [List.length_cons]
        omega
    | some d =>
      obtain ⟨d1, d2⟩ := d
      dsimp only
      obtain ⟨hdm, hb1, hb2, hb3, hb4, hunc⟩ := findCarve_some hfc
      dsimp only at hb1 hb2 hb3 hb4 hunc
      have hd : (d1, d2) ∈ carveDirs := hperm.mem_iff.mp hdm
      have hdval : (d1 = 2 ∧ d2 = 0) ∨ (d1 = -2 ∧ d2 = 0) ∨
          (d1 = 0 ∧ d2 = 2) ∨ (d1 = 0 ∧ d2 = -2) := by
        simp only [carveDirs, List.mem_cons, List.not_mem_nil, or_false,
          Prod.mk.injEq] at hd
        exact hd
      obtain ⟨hcx2, hcy2, hcx0, hcxw, hcy0, hcyh⟩ :=
        hinv.stackOdd cur (List.mem_cons_self cur rest)
      have hpassCur : gridGet g cur.x cur.y = some 0 :=
        hinv.stackPass cur (List.mem_cons_self cur rest)
      have htodd : OddInterior w h ⟨cur.x + d1, cur.y + d2⟩ :=
        ⟨by dsimp only; omega, by dsimp only; omega, by dsimp only; omega,
          by dsimp only; omega, by dsimp only; omega, by dsimp only; omega⟩
      have hwpar : (cur.x + d1 / 2) % 2 = 0 ∨ (cur.y + d2 / 2) % 2 = 0 := by
        omega
      have hwne : cur.x + d1 ≠ cur.x + d1 / 2 ∨ cur.y + d2 ≠ cur.y + d2 / 2 := by
        omega
      have hwbx : 0 ≤ cur.x + d1 / 2 ∧ cur.x + d1 / 2 < (w : ℤ) ∧
          0 ≤ cur.y + d2 / 2 ∧ cur.y + d2 / 2 < (h : ℤ) := by
        omega
      have hmwall : gridGet g (cur.x + d1 / 2) (cur.y + d2 / 2) ≠ some 0 := by
        intro hpassm
        rcases hinv.kind ⟨cur.x + d1 / 2, cur.y + d2 / 2⟩ hpassm with hoddm | hbr
        · obtain ⟨hmx, hmy, -, -, -, -⟩ := hoddm
          dsimp only at hmx hmy
          omega
        · rcases hbr with ⟨hp1, hp2, hlo, hhi⟩ | ⟨hp1, hp2, hlo, hhi⟩
          · dsimp only at hp1 hp2 hlo hhi
            have hy2 : cur.y + d2 = cur.y + d2 / 2 := by omega
            have hx2 : cur.x + d1 = cur.x + d1 / 2 - 1 ∨
                cur.x + d1 = cur.x + d1 / 2 + 1 := by omega
            rcases hx2 with hx2 | hx2
            · exact hunc (by rw [hx2, hy2]; exact hlo)
            · exact hunc (by rw [hx2, hy2]; exact hhi)
          · dsimp only at hp1 hp2 hlo hhi
            have hx2 : cur.x + d1 = cur.x + d1 / 2 := by omega
            have hy2 : cur.y + d2 = cur.y + d2 / 2 - 1 ∨
                cur.y + d2 = cur.y + d2 / 2 + 1 := by omega
            rcases hy2 with hy2 | hy2
            · exact hunc (by rw [hx2, hy2]; exact hlo)
            · exact hunc (by rw [hx2, hy2]; exact hhi)
      obtain ⟨u, hu⟩ := hinv.shaped.gridGet_some
        (x := cur.x + d1 / 2) (y := cur.y + d2 / 2)
        (by omega) (by omega) (by omega) (by omega)
      obtain ⟨v, hv⟩ := hinv.shaped.gridGet_some
        (x := cur.x + d1) (y := cur.y + d2)
        (by omega) (by omega) (by omega) (by omega)
      have hune : u ≠ 0 := fun h0 => hmwall (h0 ▸ hu)
      have hvne : v ≠ 0 := fun h0 => hunc (h0 ▸ hv)
      simp only [carve]
      have hG1t : gridGet (gridSet g (cur.x + d1 / 2) (cur.y + d2 / 2) 0)
          (cur.x + d1) (cur.y + d2) = some v := by
        rw [gridGet_gridSet_ne hwne]
        exact hv
      have htp : gridGet (gridSet (gridSet g (cur.x + d1 / 2) (cur.y + d2 / 2) 0)
          (cur.x + d1) (cur.y + d2) 0) (cur.x + d1) (cur.y + d2) = some 0 :=
        gridGet_gridSet_self 0 hG1t
      have hmp : gridGet (gridSet (gridSet g (cur.x + d1 / 2) (cur.y + d2 / 2) 0)
          (cur.x + d1) (cur.y + d2) 0) (cur.x + d1 / 2) (cur.y + d2 / 2) = some 0 := by
        rw [gridGet_gridSet_ne (hwne.imp Ne.symm Ne.symm)]
        exact gridGet_gridSet_self 0 hu
      have hmono : ∀ x y : ℤ, gridGet g x y = some 0 →
          gridGet (gridSet (gridSet g (cur.x + d1 / 2) (cur.y + d2 / 2) 0)
            (cur.x + d1) (cur.y + d2) 0) x y = some 0 :=
        fun x y hxy => pass_pres (pass_pres hxy)
      have hchar : ∀ p : Pt,
          gridGet (gridSet (gridSet g (cur.x + d1 / 2) (cur.y + d2 / 2) 0)
            (cur.x + d1) (cur.y + d2) 0) p.x p.y = some 0 →
          gridGet g p.x p.y = some 0 ∨ p = ⟨cur.x + d1 / 2, cur.y + d2 / 2⟩ ∨
            p = ⟨cur.x + d1, cur.y + d2⟩ := by
        intro p hp
        rcases gridGet_gridSet_cases (gridSet g (cur.x + d1 / 2) (cur.y + d2 / 2) 0)
            p.x p.y (cur.x + d1) (cur.y + d2) 0 with hc | ⟨hx, hy, -⟩
        · rw [hc] at hp
          rcases gridGet_gridSet_cases g p.x p.y (cur.x + d1 / 2) (cur.y + d2 / 2) 0
              with hc2 | ⟨hx, hy, -⟩
          · rw [hc2] at hp
            exact Or.inl hp
          · right
            left
            cases p
            dsimp only at hx hy
            rw [hx, hy]
        · right
          right
          cases p
          dsimp only at hx hy
          rw [hx, hy]
      have hadj1 : PassAdj (gridSet (gridSet g (cur.x + d1 / 2) (cur.y + d2 / 2) 0)
          (cur.x + d1) (cur.y + d2) 0) cur ⟨cur.x + d1 / 2, cur.y + d2 / 2⟩ :=
        ⟨hmono _ _ hpassCur, hmp, by dsimp only; omega⟩
      have hadj2 : PassAdj (gridSet (gridSet g (cur.x + d1 / 2) (cur.y + d2 / 2) 0)
          (cur.x + d1) (cur.y + d2) 0) ⟨cur.x + d1 / 2, cur.y + d2 / 2⟩
          ⟨cur.x + d1, cur.y + d2⟩ :=
        ⟨hmp, htp, by dsimp only; omega⟩
      have hcounts := oddCounts_carve hwpar hwne htodd hunc htp
      have hpc2 : passCount (gridSet (gridSet g (cur.x + d1 / 2) (cur.y + d2 / 2) 0)
          (cur.x + d1) (cur.y + d2) 0) = passCount g + 2 := by
        rw [passCount_set0 hG1t hvne, passCount_set0 hu hune]
      refine ⟨⟨?_, ?_, ?_, ?_, ?_, ?_, ?_, ?_⟩, ?_⟩
      · exact (hinv.shaped.set _ _ 0).set _ _ 0
      · exact hmono 1 1 hinv.origin
      · intro p hp
        rcases List.mem_cons.mp hp with hee | hee
        · subst hee
          exact htodd
        · exact hinv.stackOdd p hee
      · intro p hp
        rcases List.mem_cons.mp hp with hee | hee
        · subst hee
          exact htp
        · exact hmono _ _ (hinv.stackPass p hee)
      · intro p hp
        rcases hchar p hp with hold | rfl | rfl
        · rcases hinv.kind p hold with ho | hbr
          · exact Or.inl ho
          · refine Or.inr ?_
            rcases hbr with ⟨ha, hbb, hc, he⟩ | ⟨ha, hbb, hc, he⟩
            · exact Or.inl ⟨ha, hbb, hmono _ _ hc, hmono _ _ he⟩
            · exact Or.inr ⟨ha, hbb, hmono _ _ hc, hmono _ _ he⟩
        · refine Or.inr ?_
          rcases hdval with ⟨he1, he2⟩ | ⟨he1, he2⟩ | ⟨he1, he2⟩ | ⟨he1, he2⟩
          · refine Or.inl ⟨by dsimp only; omega, by dsimp only; omega, ?_, ?_⟩
            · have e1 : cur.x + d1 / 2 - 1 = cur.x := by omega
              have e2 : cur.y + d2 / 2 = cur.y := by omega
              dsimp only
              exact gridGet_coord_congr e1 e2 (hmono _ _ hpassCur)
            · have e1 : cur.x + d1 / 2 + 1 = cur.x + d1 := by omega
              have e2 : cur.y + d2 / 2 = cur.y + d2 := by omega
              dsimp only
              exact gridGet_coord_congr e1 e2 htp
          · refine Or.inl ⟨by dsimp only; omega, by dsimp only; omega, ?_, ?_⟩
            · have e1 : cur.x + d1 / 2 - 1 = cur.x + d1 := by omega
              have e2 : cur.y + d2 / 2 = cur.y + d2 := by omega
              dsimp only
              exact gridGet_coord_congr e1 e2 htp
            · have e1 : cur.x + d1 / 2 + 1 = cur.x := by omega
              have e2 : cur.y + d2 / 2 = cur.y := by omega
              dsimp only
              exact gridGet_coord_congr e1 e2 (hmono _ _ hpassCur)
          · refine Or.inr ⟨by dsimp only; omega, by dsimp only; omega, ?_, ?_⟩
            · have e1 : cur.x + d1 / 2 = cur.x := by omega
              have e2 : cur.y + d2 / 2 - 1 = cur.y := by omega
              dsimp only
              exact gridGet_coord_congr e1 e2 (hmono _ _ hpassCur)
            · have e1 : cur.x + d1 / 2 = cur.x + d1 := by omega
              have e2 : cur.y + d2 / 2 + 1 = cur.y + d2 := by omega
              dsimp only
              exact gridGet_coord_congr e1 e2 htp
          · refine Or.inr ⟨by dsimp only; omega, by dsimp only; omega, ?_, ?_⟩
            · have e1 : cur.x + d1 / 2 = cur.x + d1 := by omega
              have e2 : cur.y + d2 / 2 - 1 = cur.y + d2 := by omega
              dsimp only
              exact gridGet_coord_congr e1 e2 htp
            · have e1 : cur.x + d1 / 2 = cur.x := by omega
              have e2 : cur.y + d2 / 2 + 1 = cur.y := by omega
              dsimp only
              exact gridGet_coord_congr e1 e2 (hmono _ _ hpassCur)
        · exact Or.inl htodd
      · intro p hp
        have hcur2 : ReachP (gridSet (gridSet g (cur.x + d1 / 2) (cur.y + d2 / 2) 0)
            (cur.x + d1) (cur.y + d2) 0) ⟨1, 1⟩ cur :=
          reachP_mono hmono (hinv.conn cur hpassCur)
        rcases hchar p hp with hold | rfl | rfl
        · exact reachP_mono hmono (hinv.conn p hold)
        · exact hcur2.tail hadj1
        · exact (hcur2.tail hadj1).tail hadj2
      · intro p hpo hp hnst e he hbb1 hbb2 hbb3 hbb4
        have hpm : p ≠ (⟨cur.x + d1 / 2, cur.y + d2 / 2⟩ : Pt) := by
          intro hee
          obtain ⟨hpx, hpy, -, -, -, -⟩ := hpo
          have hx := congrArg Pt.x hee
          have hy := congrArg Pt.y hee
          dsimp only at hx hy
          omega
        rcases hchar p hp with hold | hee | hee
        · have hstk : p ∉ cur :: rest := fun hm => hnst (List.mem_cons_of_mem _ hm)
          exact hmono _ _ (hinv.closed p hpo hold hstk e he hbb1 hbb2 hbb3 hbb4)
        · exact absurd hee hpm
        · exact absurd (by rw [hee]; exact List.mem_cons_self _ _) hnst
      · have hcnt := hinv.count
        dsimp only at hcnt
        dsimp only
        rw [hpc2, hcounts.1]
        omega
      · intro hne
        unfold carveMeasure
        dsimp only
        simp only [List.length_cons]
        have := hcounts.2
        omega


theorem cinv_carveLoop {w h : ℕ} {shuf : ℕ → List (ℤ × ℤ)}
    (hperm : ∀ i, (shuf i).Perm carveDirs) :
    ∀ (fuel i : ℕ) (s : CarveSt), CInv w h s → carveMeasure w h s ≤ fuel →
      CInv w h (carveLoop w h shuf fuel i s) ∧
        (carveLoop w h shuf fuel i s).stack = []
  | 0, i, s, hinv, hm => by
    refine ⟨hinv, ?_⟩
    unfold carveMeasure at hm
    have hlen : s.stack.length = 0 := by omega
    exact List.length_eq_zero.mp hlen
  | fuel + 1, i, s, hinv, hm => by
    unfold carveLoop
    by_cases hq : s.stack = []
    · rw [if_pos hq]
      exact ⟨hinv, hq⟩
    · rw [if_neg hq]
      obtain ⟨hinv2, hmeas⟩ := cinv_carveStep (hperm i) hinv
      exact cinv_carveLoop hperm fuel (i + 1) _ hinv2 (by have := hmeas hq; omega)

theorem cinv_carvePhase {w h : ℕ} (shuf : ℕ → List (ℤ × ℤ)) (hw : 3 ≤ w)
    (hh : 3 ≤ h) (hperm : ∀ i, (shuf i).Perm carveDirs) :
    CInv w h (carvePhase w h shuf) ∧ (carvePhase w h shuf).stack = [] := by
  unfold carvePhase
  dsimp only
  refine cinv_carveLoop hperm _ 0 _ (cinv_init hw hh) ?_
  unfold carveMeasure carveFuel
  dsimp only
  simp only [List.length_singleton]
  have h3 : (oddBelow w).length ≤ w := by
    unfold oddBelow
    have := List.length_filter_le
      (fun k => decide (k % 2 = 1 ∧ k + 1 < w)) (List.range w)
    rw [List.length_range] at this
    exact this
  have h4 : (oddBelow h).length ≤ h := by
    unfold oddBelow
    have := List.length_filter_le
      (fun k => decide (k % 2 = 1 ∧ k + 1 < h)) (List.range h)
    rw [List.length_range] at this
    exact this
  have h5 : oddWallCount w h (carve (List.replicate h (List.replicate w 1)) 1 1) ≤
      h * w := by
    have hf : oddWallCount w h (carve (List.replicate h (List.replicate w 1)) 1 1) ≤
        (oddLattice w h).length := by
      unfold oddWallCount
      exact List.length_filter_le _ _
    rw [oddLattice_length] at hf
    exact le_trans hf (Nat.mul_le_mul h4 h3)
  calc 2 * oddWallCount w h (carve (List.replicate h (List.replicate w 1)) 1 1) + 1
      ≤ 2 * (h * w) + 1 := Nat.add_le_add_right (Nat.mul_le_mul_left 2 h5) 1
    _ = 2 * w * h + 1 := by ring
    _ ≤ 2 * w * h + 2 := Nat.add_le_add_left (by norm_num) _

/-- C1: for all requested dimensions at least 2 and every randomness stream
whose per-iteration shuffle is a permutation of the four carve directions, the
grid left by the carving phase of `generatePerfectMaze` (before the soft
re-walling pass) is a spanning tree of the odd-coordinate interior lattice:
every PASSAGE cell is reachable from every other PASSAGE cell via 4-connected
PASSAGE steps, every odd-coordinate interior cell is PASSAGE, and the number
of PASSAGE cells is exactly twice the lattice size minus one (tree edge
count). -/
theorem C1_carve_spanning_tree (w h : ℕ) (shuf : ℕ → List (ℤ × ℤ))
    (hw : 2 ≤ w) (hh : 2 ≤ h) (hperm : ∀ i, (shuf i).Perm carveDirs) :
    (∀ p q : Pt,
        gridGet (carvePhase (oddify w) (oddify h) shuf).g p.x p.y = some 0 →
        gridGet (carvePhase (oddify w) (oddify h) shuf).g q.x q.y = some 0 →
        ReachP (carvePhase (oddify w) (oddify h) shuf).g p q) ∧
    (∀ p : Pt, OddInterior (oddify w) (oddify h) p →
        gridGet (carvePhase (oddify w) (oddify h) shuf).g p.x p.y = some 0) ∧
    passCount (carvePhase (oddify w) (oddify h) shuf).g + 1 =
      2 * ((oddBelow (oddify h)).length * (oddBelow (oddify w)).length) := by
  obtain ⟨hinv, hstk⟩ :=
    cinv_carvePhase shuf (oddify_ge3 hw) (oddify_ge3 hh) hperm
  have hspan : ∀ (n : ℕ) (p : Pt), (p.x + p.y).toNat ≤ n →
      OddInterior (oddify w) (oddify h) p →
      gridGet (carvePhase (oddify w) (oddify h) shuf).g p.x p.y = some 0 := by
    intro n
    induction n with
    | zero =>
      intro p hn hodd
      obtain ⟨-, -, h3, -, h5, -⟩ := hodd
      omega
    | succ n ih =>
      intro p hn hodd
      obtain ⟨h1, h2, h3, h4, h5, h6⟩ := hodd
      by_cases hy : p.y = 1
      · by_cases hx : p.x = 1
        · have hp : p = ⟨1, 1⟩ := by
            cases p
            dsimp only at hx hy
            rw [hx, hy]
          rw [hp]
          exact hinv.origin
        · have hq : OddInterior (oddify w) (oddify h) ⟨p.x - 2, p.y⟩ :=
            ⟨by dsimp only; omega, by dsimp only; omega, by dsimp only; omega,
              by dsimp only; omega, by dsimp only; omega, by dsimp only; omega⟩
          have hqp := ih ⟨p.x - 2, p.y⟩ (by dsimp only; omega) hq
          have hcl := hinv.closed ⟨p.x - 2, p.y⟩ hq hqp
            (by rw [hstk]; exact List.not_mem_nil _) (2, 0)
            (by simp [carveDirs]) (by dsimp only; omega) (by dsimp only; omega)
            (by dsimp only; omega) (by dsimp only; omega)
          dsimp only at hcl
          exact gridGet_coord_congr (by omega) (by omega) hcl
      · have hq : OddInterior (oddify w) (oddify h) ⟨p.x, p.y - 2⟩ :=
          ⟨by dsimp only; omega, by dsimp only; omega, by dsimp only; omega,
            by dsimp only; omega, by dsimp only; omega, by dsimp only; omega⟩
        have hqp := ih ⟨p.x, p.y - 2⟩ (by dsimp only; omega) hq
        have hcl := hinv.closed ⟨p.x, p.y - 2⟩ hq hqp
          (by rw [hstk]; exact List.not_mem_nil _) (0, 2)
          (by simp [carveDirs]) (by dsimp only; omega) (by dsimp only; omega)
          (by dsimp only; omega) (by dsimp only; omega)
        dsimp only at hcl
        exact gridGet_coord_congr (by omega) (by omega) hcl
  have hspan2 : ∀ p : Pt, OddInterior (oddify w) (oddify h) p →
      gridGet (carvePhase (oddify w) (oddify h) shuf).g p.x p.y = some 0 :=
    fun p hodd => hspan (p.x + p.y).toNat p (le_refl _) hodd
  refine ⟨?_, hspan2, ?_⟩
  · intro p q hp hq
    exact Relation.ReflTransGen.trans (reachP_symm (hinv.conn p hp)) (hinv.conn q hq)
  · have hfull : oddPassCount (oddify w) (oddify h)
        (carvePhase (oddify w) (oddify h) shuf).g =
        (oddLattice (oddify w) (oddify h)).length := by
      unfold oddPassCount
      rw [← List.countP_eq_length_filter, List.countP_eq_length]
      intro b hb
      simp only [decide_eq_true_eq]
      exact hspan2 b (oddLattice_mem.mp hb)
    rw [hinv.count, hfull, oddLattice_length]

/-- Witness for C1 at requested dimensions 2×2 (normalized to a 3×3 grid with
a single odd-lattice cell) with the identity shuffle stream. -/
theorem C1_carve_spanning_tree_witness :
    passCount (carvePhase (oddify 2) (oddify 2) (fun _ => carveDirs)).g + 1 =
      2 * ((oddBelow (oddify 2)).length * (oddBelow (oddify 2)).length) :=
  (C1_carve_spanning_tree 2 2 (fun _ => carveDirs) (by decide) (by decide)
    (fun i => List.Perm.refl carveDirs)).2.2


end MazeGame
